import Mathlib

/-!
Verification of the markdown PATCH engine
(`src/markdown_vault/core/patch_engine.py`).

Documents are modelled as lists of characters; Python strings map to
`List Char`, `str.split("\n")` to `splitLines`, `"\n".join` to `joinLines`.
The two regular expressions `HEADING_PATTERN` and `BLOCK_PATTERN` are
embedded as executable functions whose semantics were derived by hand from
Python `re` matching (leftmost match, lazy/greedy backtracking).
-/

namespace MarkdownVault

/-- Python `\s` for the ASCII range (space, tab, newline, carriage return,
vertical tab, form feed); also the character set stripped by `str.strip()`. -/
def pyIsSpace (c : Char) : Bool :=
  c = ' ' || c = '\t' || c = '\n' || c = '\r' || c = '\x0b' || c = '\x0c'

/-- `str.rstrip()` on a list of characters. -/
def trimRight (s : List Char) : List Char :=
  (s.reverse.dropWhile pyIsSpace).reverse

/-- `str.lstrip()` on a list of characters. -/
def trimLeft (s : List Char) : List Char :=
  s.dropWhile pyIsSpace

/-- `str.strip()` on a list of characters. -/
def pyStrip (s : List Char) : List Char :=
  trimLeft (trimRight s)

/-- `content.split("\n")`: split on every newline, never collapsing;
the result is always non-empty and `"".split("\n") == [""]`. -/
def splitLines : List Char → List (List Char)
  | [] => [[]]
  | c :: rest =>
    if c = '\n' then [] :: splitLines rest
    else
      match splitLines rest with
      | [] => [[c]]
      | l :: ls => (c :: l) :: ls

/-- `"\n".join(lines)`. -/
def joinLines : List (List Char) → List Char
  | [] => []
  | l :: ls =>
    match ls with
    | [] => l
    | _ :: _ => l ++ '\n' :: joinLines ls

theorem splitLines_newline_cons (rest : List Char) :
    splitLines ('\n' :: rest) = [] :: splitLines rest := by
  simp [splitLines]

theorem splitLines_ne_nil (s : List Char) : splitLines s ≠ [] := by
  induction s with
  | nil => simp [splitLines]
  | cons c rest ih =>
    by_cases hc : c = '\n'
    · subst hc; simp [splitLines_newline_cons]
    · simp only [splitLines, if_neg hc]
      cases h : splitLines rest with
      | nil => simp
      | cons l ls => simp

theorem splitLines_cons_of_ne (c : Char) (rest : List Char) (hc : c ≠ '\n')
    (l : List Char) (ls : List (List Char)) (h : splitLines rest = l :: ls) :
    splitLines (c :: rest) = (c :: l) :: ls := by
  simp only [splitLines, if_neg hc, h]

theorem joinLines_cons_of_ne (l : List Char) (ls : List (List Char)) (h : ls ≠ []) :
    joinLines (l :: ls) = l ++ '\n' :: joinLines ls := by
  cases ls with
  | nil => exact absurd rfl h
  | cons m ms => rfl

theorem not_newline_mem_splitLines (s : List Char) :
    ∀ l ∈ splitLines s, '\n' ∉ l := by
  induction s with
  | nil => intro l hl; simp [splitLines] at hl; simp [hl]
  | cons c rest ih =>
    intro l hl
    by_cases hc : c = '\n'
    · subst hc
      rw [splitLines_newline_cons] at hl
      rcases List.mem_cons.mp hl with h | h
      · simp [h]
      · exact ih l h
    · cases h : splitLines rest with
      | nil => exact absurd h (splitLines_ne_nil rest)
      | cons m ms =>
        rw [splitLines_cons_of_ne c rest hc m ms h] at hl
        rcases List.mem_cons.mp hl with h' | h'
        · subst h'
          intro hmem
          rcases List.mem_cons.mp hmem with h'' | h''
          · exact hc h''.symm
          · exact ih m (h ▸ List.mem_cons_self m ms) h''
        · exact ih l (h ▸ List.mem_cons_of_mem m h')

theorem joinLines_splitLines (s : List Char) : joinLines (splitLines s) = s := by
  induction s with
  | nil => simp [splitLines, joinLines]
  | cons c rest ih =>
    by_cases hc : c = '\n'
    · subst hc
      rw [splitLines_newline_cons,
        joinLines_cons_of_ne [] (splitLines rest) (splitLines_ne_nil rest), ih]
      rfl
    · cases h : splitLines rest with
      | nil => exact absurd h (splitLines_ne_nil rest)
      | cons l ls =>
        rw [splitLines_cons_of_ne c rest hc l ls h]
        cases ls with
        | nil =>
          show c :: l = c :: rest
          have := ih; rw [h] at this
          simpa [joinLines] using this
        | cons m ms =>
          rw [joinLines_cons_of_ne (c :: l) (m :: ms) (by simp)]
          have := ih
          rw [h, joinLines_cons_of_ne l (m :: ms) (by simp)] at this
          simpa using this

theorem splitLines_no_newline (l : List Char) (hl : '\n' ∉ l) :
    splitLines l = [l] := by
  induction l with
  | nil => simp [splitLines]
  | cons c cs ih =>
    have hc : c ≠ '\n' := by intro hcc; exact hl (by simp [hcc])
    have hcs : '\n' ∉ cs := fun hx => hl (List.mem_cons_of_mem c hx)
    exact splitLines_cons_of_ne c cs hc cs [] (ih hcs)

theorem splitLines_append_newline (l : List Char) (hl : '\n' ∉ l) (s : List Char) :
    splitLines (l ++ '\n' :: s) = l :: splitLines s := by
  induction l with
  | nil => simp [splitLines_newline_cons]
  | cons c cs ih =>
    have hc : c ≠ '\n' := by intro hcc; exact hl (by simp [hcc])
    have hcs : '\n' ∉ cs := fun hx => hl (List.mem_cons_of_mem c hx)
    have := ih hcs
    cases h : splitLines (cs ++ '\n' :: s) with
    | nil => exact absurd h (splitLines_ne_nil _)
    | cons m ms =>
      rw [h] at this
      obtain ⟨hm, hms⟩ := List.cons.inj this
      rw [List.cons_append, splitLines_cons_of_ne c _ hc m ms h, hm, hms]

theorem splitLines_joinLines (ls : List (List Char)) (hne : ls ≠ [])
    (h : ∀ l ∈ ls, '\n' ∉ l) : splitLines (joinLines ls) = ls := by
  induction ls with
  | nil => exact absurd rfl hne
  | cons l rest ih =>
    cases rest with
    | nil =>
      show splitLines (joinLines [l]) = [l]
      exact splitLines_no_newline l (h l (by simp))
    | cons m ms =>
      rw [joinLines_cons_of_ne l (m :: ms) (by simp)]
      rw [splitLines_append_newline l (h l (by simp))]
      rw [ih (by simp) (fun x hx => h x (List.mem_cons_of_mem l hx))]

/-!
## The two regular expressions

`HEADING_PATTERN = ^(#{1,6})\s+(.+?)(?:\s+\x7b[^\x7d]*\x7d)?\s*$` applied with
`re.match`, the heading text being `group(2).strip()`.

`BLOCK_PATTERN = \^([a-zA-Z0-9-_]+)\s*$` applied with `re.search`.
-/

/-- Characters of the `BLOCK_PATTERN` identifier class `[a-zA-Z0-9-_]`
(the hyphen after the `0-9` range is a literal). -/
def idChar (c : Char) : Bool :=
  c.isAlpha || c.isDigit || c = '-' || c = '_'

/-- Position of the `\x7b` opening an optional trailing attribute group
`(?:\s+\x7b[^\x7d]*\x7d)?` inside the already right-trimmed, left-trimmed
text `r2`: the candidate braces are those after the second-to-last `\x7d`,
and the lazy `(.+?)` picks the earliest one directly preceded by whitespace. -/
def attrStart (r2 : List Char) : Option Nat :=
  if r2.getLast? = some '}' then
    let body := r2.dropLast
    let q := body.length - (body.reverse.takeWhile (fun c => c ≠ '}')).length
    (List.range body.length).find? (fun p =>
      decide (q ≤ p) && decide (body[p]? = some '{') && decide (1 ≤ p) &&
        (body[p-1]?.map pyIsSpace).getD false)
  else none

/-- `group(2).strip()` of `HEADING_PATTERN`, given the part of the line after
the run of `#` characters; `none` when `\s+(.+?)...` cannot match. -/
def headingText (rest : List Char) : Option (List Char) :=
  match rest.head? with
  | none => none
  | some c =>
    if pyIsSpace c then
      let r2 := pyStrip rest
      if r2 = [] then
        -- `\s+` and a lazy one-character `(.+?)` can both be satisfied from
        -- whitespace alone only when at least two characters are present.
        if 2 ≤ rest.length then some [] else none
      else
        match attrStart r2 with
        | some p => some (trimRight (r2.take p))
        | none => some r2
    else none

/-- `HEADING_PATTERN.match(line)` returning `(level, group(2).strip())`. -/
def headingMatch (line : List Char) : Option (Nat × List Char) :=
  let k := (line.takeWhile (fun c => c = '#')).length
  if 1 ≤ k ∧ k ≤ 6 then (headingText (line.drop k)).map (fun t => (k, t)) else none

/-- `BLOCK_PATTERN.search(line)` returning `(match.start(), group(1))`:
after stripping trailing whitespace, the maximal identifier-character suffix,
provided it is non-empty and directly preceded by a caret. -/
def lineBlockId (line : List Char) : Option (Nat × List Char) :=
  let r := trimRight line
  let bid := (r.reverse.takeWhile idChar).reverse
  if bid = [] then none
  else
    let p := r.length - bid.length
    if 1 ≤ p ∧ r[p-1]? = some '^' then some (p - 1, bid) else none

/-!
## Target-specification parsing helpers
-/

/-- `target.split("::")` (leftmost, non-overlapping occurrences). -/
def splitOn2Colon : List Char → List (List Char)
  | [] => [[]]
  | ':' :: ':' :: rest => [] :: splitOn2Colon rest
  | c :: rest =>
    match splitOn2Colon rest with
    | [] => [[c]]
    | l :: ls => (c :: l) :: ls

/-- `s.rsplit(":", 1)` for a string known to contain a colon:
`(text before the last colon, text after it)`. -/
def rsplitColon (s : List Char) : List Char × List Char :=
  let after := (s.reverse.takeWhile (fun c => c ≠ ':')).reverse
  (s.take (s.length - after.length - 1), after)

/-- Whether `ds` is a valid Python integer digit sequence: non-empty digits
with single underscores allowed only between digits. -/
def pyDigits : List Char → Bool
  | [] => false
  | [c] => c.isDigit
  | c :: '_' :: rest => c.isDigit && pyDigits rest
  | c :: rest => c.isDigit && pyDigits rest

/-- Numeric value of a digit sequence accepted by `pyDigits`. -/
def digitsVal : List Char → Nat
  | [] => 0
  | c :: rest =>
    if c = '_' then digitsVal rest
    else digitsVal rest + (c.toNat - 48) * 10 ^ (rest.filter (fun d => d ≠ '_')).length

/-- Python `int(s)` for ASCII input: surrounding whitespace allowed, optional
sign, digits with embedded single underscores; `none` means `ValueError`. -/
def pyParseInt (s : List Char) : Option Int :=
  let t := pyStrip s
  match t with
  | '+' :: ds => if pyDigits ds then some (digitsVal ds) else none
  | '-' :: ds => if pyDigits ds then some (-(digitsVal ds : Int)) else none
  | ds => if pyDigits ds then some (digitsVal ds) else none

/-!
## Data model
-/

/-- A heading in the markdown hierarchy (`HeadingNode` in the source). -/
inductive HeadingNode where
  | mk (text : List Char) (level : Nat) (start_line : Nat) (end_line : Nat)
      (children : List HeadingNode)

def HeadingNode.text : HeadingNode → List Char
  | .mk t _ _ _ _ => t

def HeadingNode.level : HeadingNode → Nat
  | .mk _ lv _ _ _ => lv

def HeadingNode.start_line : HeadingNode → Nat
  | .mk _ _ s _ _ => s

def HeadingNode.end_line : HeadingNode → Nat
  | .mk _ _ _ e _ => e

def HeadingNode.children : HeadingNode → List HeadingNode
  | .mk _ _ _ _ ch => ch

/-- Position of a block or target in the content (`BlockPosition`).
`end_col = -1` means end of line. -/
structure BlockPosition where
  start_line : Nat
  end_line : Nat
  start_col : Nat := 0
  end_col : Int := -1
deriving DecidableEq, Repr

/-- The patch error taxonomy. `PatchError` itself is never raised directly by
the engine, so only the two concrete subclasses are modelled; each carries its
message text. -/
inductive PatchError where
  | targetNotFound (msg : List Char)
  | invalidTarget (msg : List Char)
deriving DecidableEq, Repr

/-!
## Heading hierarchy parser (`_parse_heading_hierarchy`)

The Python code mutates `HeadingNode` objects reachable from a stack while
also having registered them in the tree.  Functionally, an open node is a
`Frame` (its mutable `end_line` plus its already-closed children); a node is
materialised and attached to its parent frame (or to the root list) at the
moment it is popped, which preserves the source's sibling ordering.
-/

/-- An open heading on the parser stack. -/
structure Frame where
  text : List Char
  level : Nat
  start_line : Nat
  end_line : Nat
  children : List HeadingNode

/-- Materialise an open frame as a finished node. -/
def closeFrame (f : Frame) : HeadingNode :=
  .mk f.text f.level f.start_line f.end_line f.children

/-- Parser state: finished roots plus the stack of open frames,
head of the list being the innermost (top) frame. -/
structure ParseState where
  roots : List HeadingNode
  stack : List Frame

/-- `while stack and stack[-1].level >= level: popped = stack.pop();
if stack: popped.end_line = i - 1` — a popped frame is attached as the last
child of the frame below it, with its `end_line` set to `i - 1`; a popped
frame that empties the stack keeps its current `end_line` and becomes a root. -/
def popWhileAux (i level : Nat) (roots : List HeadingNode) (f : Frame) :
    List Frame → List HeadingNode × List Frame
  | [] =>
    if level ≤ f.level then (roots ++ [closeFrame f], []) else (roots, [f])
  | g :: gs =>
    if level ≤ f.level then
      popWhileAux i level roots
        { g with children :=
            g.children ++ [closeFrame { f with end_line := i - 1 }] } gs
    else (roots, f :: g :: gs)

def popWhile (i level : Nat) (roots : List HeadingNode) :
    List Frame → List HeadingNode × List Frame
  | [] => (roots, [])
  | f :: rest => popWhileAux i level roots f rest

/-- Processing of one heading line `(i, level, text)` given the total number
of lines `L`: close the running content of the current top
(`stack[-1].end_line = i - 1`), pop frames of level ≥ `level`, then push the
new heading with default `end_line = len(lines) - 1`. -/
def parseStep (L : Nat) (st : ParseState) (ev : Nat × Nat × List Char) :
    ParseState :=
  let i := ev.1
  let level := ev.2.1
  let text := ev.2.2
  let stack1 :=
    match st.stack with
    | [] => []
    | f :: rest => { f with end_line := i - 1 } :: rest
  let rs := popWhile i level st.roots stack1
  { roots := rs.1,
    stack := ⟨text, level, i, L - 1, []⟩ :: rs.2 }

/-- `for i, line in enumerate(lines)`: lines that do not match
`HEADING_PATTERN` leave the state unchanged. -/
def parseLinesAux (L : Nat) (st : ParseState) (i : Nat) :
    List (List Char) → ParseState
  | [] => st
  | l :: ls =>
    parseLinesAux L
      (match headingMatch l with
       | some kt => parseStep L st (i, kt.1, kt.2)
       | none => st)
      (i + 1) ls

/-- At end of input every remaining frame is materialised with its current
`end_line`, attaching to the frame below or, for the bottom frame, to the
roots. -/
def closeAllAux (roots : List HeadingNode) (f : Frame) :
    List Frame → List HeadingNode
  | [] => roots ++ [closeFrame f]
  | g :: gs => closeAllAux roots { g with children := g.children ++ [closeFrame f] } gs

def closeAll (roots : List HeadingNode) : List Frame → List HeadingNode
  | [] => roots
  | f :: rest => closeAllAux roots f rest

/-- `_parse_heading_hierarchy(content)`. -/
def parseHeadingHierarchy (content : List Char) : List HeadingNode :=
  let lines := splitLines content
  let st := parseLinesAux lines.length ⟨[], []⟩ 0 lines
  closeAll st.roots st.stack

/-!
## Heading lookup (`_find_heading_in_tree`)
-/

theorem sizeOf_children_lt (n : HeadingNode) : sizeOf n.children < sizeOf n := by
  cases n with
  | mk t lv s e ch => simp [HeadingNode.children]

mutual

/-- `_find_heading_in_tree(nodes, path, index)`: match `path[0]` against the
node texts; on the final component select `matches[index]`; otherwise descend
into the first match's children.  With no match and no remaining path, fall
back to a depth-first search of all children (`findFallback`). -/
def findHeadingInTree (nodes : List HeadingNode) (path : List (List Char))
    (index : Nat) : Option HeadingNode :=
  match path with
  | [] => none
  | target_text :: remaining_path =>
    match hm : nodes.filter (fun n => n.text = target_text) with
    | [] =>
      if remaining_path = [] then
        findFallback nodes (target_text :: remaining_path) index
      else none
    | m :: ms =>
      if remaining_path = [] then (m :: ms)[index]?
      else
        have hmem : m ∈ nodes :=
          List.mem_of_mem_filter (hm ▸ List.mem_cons_self m ms)
        findHeadingInTree m.children remaining_path index
termination_by (sizeOf nodes, 1)
decreasing_by
  · exact Prod.Lex.right _ (Nat.lt_succ_self 0)
  · exact Prod.Lex.left _ _ (Nat.lt_of_lt_of_le (sizeOf_children_lt m)
      (Nat.le_of_lt (List.sizeOf_lt_of_mem hmem)))

/-- The `for node in nodes: found = ... node.children ...` fallback loop. -/
def findFallback (nodes : List HeadingNode) (path : List (List Char))
    (index : Nat) : Option HeadingNode :=
  match nodes with
  | [] => none
  | n :: rest =>
    match findHeadingInTree n.children path index with
    | some found => some found
    | none => findFallback rest path index
termination_by (sizeOf nodes, 0)
decreasing_by
  · exact Prod.Lex.left _ _ (Nat.lt_of_lt_of_le (sizeOf_children_lt n)
      (by simp; omega))
  · exact Prod.Lex.left _ _ (by simp)

end

/-!
### A fuelled twin of the lookup

`findHeadingInTree` is defined by well-founded recursion, which the kernel
cannot evaluate; `findHeadingInTreeF` is a structurally recursive version
used to evaluate concrete instances, with `findHeadingInTreeF_spec`
relating the two for sufficient fuel.
-/

def findFallbackF (fHT : List HeadingNode → List (List Char) → Nat → Option HeadingNode)
    (nodes : List HeadingNode) (path : List (List Char)) (index : Nat) :
    Option HeadingNode :=
  match nodes with
  | [] => none
  | n :: rest =>
    match fHT n.children path index with
    | some found => some found
    | none => findFallbackF fHT rest path index

def findHeadingInTreeF : Nat → List HeadingNode → List (List Char) → Nat →
    Option HeadingNode
  | 0, _, _, _ => none
  | fuel + 1, nodes, path, index =>
    match path with
    | [] => none
    | target_text :: remaining_path =>
      match nodes.filter (fun n => n.text = target_text) with
      | [] =>
        if remaining_path = [] then
          findFallbackF (findHeadingInTreeF fuel) nodes
            (target_text :: remaining_path) index
        else none
      | m :: ms =>
        if remaining_path = [] then (m :: ms)[index]?
        else findHeadingInTreeF fuel m.children remaining_path index

theorem findHeadingInTreeF_spec :
    ∀ fuel nodes path index, sizeOf nodes ≤ fuel →
      findHeadingInTreeF fuel nodes path index =
        findHeadingInTree nodes path index := by
  intro fuel
  induction fuel with
  | zero =>
    intro nodes path index h
    cases nodes <;> simp at h
  | succ fuel ih =>
    intro nodes path index h
    have hch : ∀ n ∈ nodes, sizeOf n.children ≤ fuel := by
      intro n hn
      have h1 := sizeOf_children_lt n
      have h2 := List.sizeOf_lt_of_mem hn
      omega
    cases path with
    | nil => simp [findHeadingInTreeF, findHeadingInTree]
    | cons t rp =>
      have hflt : ∀ (ns : List HeadingNode),
          (∀ n ∈ ns, sizeOf n.children ≤ fuel) →
          findFallbackF (findHeadingInTreeF fuel) ns (t :: rp) index =
            findFallback ns (t :: rp) index := by
        intro ns
        induction ns with
        | nil => intro _; simp [findFallbackF, findFallback]
        | cons n rest ihn =>
          intro hns
          simp only [findFallbackF, findFallback]
          rw [ih n.children (t :: rp) index (hns n (by simp))]
          rw [ihn (fun x hx => hns x (List.mem_cons_of_mem n hx))]
      simp only [findHeadingInTreeF, findHeadingInTree]
      cases hm : nodes.filter (fun n => n.text = t) with
      | nil =>
        cases rp with
        | nil => simpa using hflt nodes hch
        | cons a b => simp
      | cons m ms =>
        cases rp with
        | nil => simp
        | cons a b =>
          simp only [if_neg (by simp : ¬(a :: b = []))]
          have hmm : m ∈ nodes :=
            List.mem_of_mem_filter (hm ▸ List.mem_cons_self m ms)
          exact ih m.children (a :: b) index (hch m hmm)

/-!
## Heading target resolution (`_find_heading_target`)
-/

/-- The `":N"`-suffix handling at the top of `_find_heading_target`:
returns the path components and the 0-based index, or the `InvalidTarget`
failure for a declared index below 1.  An unparsable suffix leaves the whole
last segment as literal heading text. -/
def parseTargetIndex (target : List Char) :
    Except PatchError (List (List Char) × Nat) :=
  let parts := splitOn2Colon target
  let last_part := parts.getLastD []
  if ':' ∈ last_part then
    let ts := rsplitColon last_part
    match pyParseInt ts.2 with
    | some n =>
      if n - 1 < 0 then
        .error (.invalidTarget
          (("Index must be >= 1, got: ").toList ++ ts.2))
      else .ok (parts.dropLast ++ [ts.1], (n - 1).toNat)
    | none => .ok (parts, 0)
  else .ok (parts, 0)

/-- `_find_heading_target(content, target)`: `ok none` plays the role of the
Python `None` return, errors are the raised exceptions. -/
def findHeadingTarget (content target : List Char) :
    Except PatchError (Option BlockPosition) := do
  let pi ← parseTargetIndex target
  let parts := pi.1
  let index := pi.2
  if parts = [] then pure none
  else
    let tree := parseHeadingHierarchy content
    match findHeadingInTree tree parts index with
    | none => pure none
    | some node =>
      let content_start := node.start_line + 1
      let content_end :=
        match node.children with
        | [] => node.end_line
        | c :: _ => c.start_line - 1
      pure (some ⟨content_start, content_end, 0, -1⟩)

/-- Kernel-evaluable version of `findHeadingTarget` (the lookup runs on the
fuelled twin; `findHeadingTarget_eval` proves the two agree for sufficient
fuel). -/
def findHeadingTargetF (fuel : Nat) (content target : List Char) :
    Except PatchError (Option BlockPosition) := do
  let pi ← parseTargetIndex target
  let parts := pi.1
  let index := pi.2
  if parts = [] then pure none
  else
    let tree := parseHeadingHierarchy content
    match findHeadingInTreeF fuel tree parts index with
    | none => pure none
    | some node =>
      let content_start := node.start_line + 1
      let content_end :=
        match node.children with
        | [] => node.end_line
        | c :: _ => c.start_line - 1
      pure (some ⟨content_start, content_end, 0, -1⟩)

theorem findHeadingTarget_eval (fuel : Nat) {content target : List Char}
    (h : sizeOf (parseHeadingHierarchy content) ≤ fuel) :
    findHeadingTarget content target = findHeadingTargetF fuel content target := by
  unfold findHeadingTarget findHeadingTargetF
  have hs : ∀ (parts : List (List Char)) (index : Nat),
      findHeadingInTreeF fuel (parseHeadingHierarchy content) parts index =
        findHeadingInTree (parseHeadingHierarchy content) parts index :=
    fun parts index => findHeadingInTreeF_spec fuel _ parts index h
  simp only [hs]

/-!
## Block target resolution (`_find_block_target`)
-/

/-- The scan loop of `_find_block_target` starting at line index `i`. -/
def findBlockInLines (block_id : List Char) (i : Nat) :
    List (List Char) → Option BlockPosition
  | [] => none
  | ln :: rest =>
    -- `ln` is the loop variable `line` of the source
    match lineBlockId ln with
    | some sb =>
      if sb.2 = block_id then
        -- include a single space before the caret in the excluded region
        let j := sb.1 - 1
        let block_start :=
          if 1 ≤ sb.1 ∧ ln[j]? = some ' ' then sb.1 - 1 else sb.1
        some ⟨i, i, 0, (block_start : Int)⟩
      else findBlockInLines block_id (i + 1) rest
    | none => findBlockInLines block_id (i + 1) rest

/-- `_find_block_target(content, block_id)`. -/
def findBlockTarget (content block_id : List Char) :
    Except PatchError BlockPosition :=
  match findBlockInLines block_id 0 (splitLines content) with
  | some pos => .ok pos
  | none =>
    .error (.targetNotFound
      (("Block reference not found: ^").toList ++ block_id))

/-!
## Operation application (`_apply_at_position`)
-/

/-- `_apply_at_position(content, position, new_content, operation)`.
Indexing `lines[position.start_line]` is modelled with a default of `[]`;
every call site resolves positions inside the document. -/
def applyAtPosition (content : List Char) (position : BlockPosition)
    (new_content : List Char) (operation : List Char) :
    Except PatchError (List Char) :=
  let lines := splitLines content
  if operation = ("replace").toList then
    let before := lines.take position.start_line
    let after := lines.drop (position.end_line + 1)
    let new_lines := splitLines new_content
    .ok (joinLines (before ++ new_lines ++ after))
  else if operation = ("append").toList then
    let before := lines.take (position.end_line + 1)
    let after := lines.drop (position.end_line + 1)
    if position.start_line = position.end_line ∧ 0 < position.end_col then
      let line := (lines.drop position.start_line).headD []
      let block_ref := line.drop position.end_col.toNat
      let line_content := trimRight (line.take position.end_col.toNat)
      let new_line := line_content ++ ' ' :: (pyStrip new_content ++ block_ref)
      let before := lines.take position.start_line ++ [new_line]
      .ok (joinLines (before ++ after))
    else
      let new_content :=
        if new_content.head? = some '\n' then new_content else '\n' :: new_content
      let new_lines := splitLines new_content
      .ok (joinLines (before ++ new_lines ++ after))
  else if operation = ("prepend").toList then
    let before := lines.take position.start_line
    let after := lines.drop position.start_line
    let new_lines := splitLines new_content
    let new_lines :=
      if new_lines ≠ [] ∧ new_lines.getLast? = some [] then new_lines.dropLast
      else new_lines
    .ok (joinLines (before ++ new_lines ++ after))
  else
    .error (.invalidTarget
      (("Invalid operation: ").toList ++ operation ++
        (". Must be 'append', 'prepend', or 'replace'").toList))

/-!
## Heading creation (`_create_heading`)
-/

/-- The path-parsing prologue of `_create_heading`: split on `::` and strip
a `:`-suffix from the last segment if one is present. -/
def createParts (target : List Char) : List (List Char) :=
  let parts := splitOn2Colon target
  if ':' ∈ parts.getLastD [] then
    parts.dropLast ++ [(rsplitColon (parts.getLastD [])).1]
  else parts

/-- `_create_heading(content, target, new_content)`. -/
def createHeading (content target new_content : List Char) : List Char :=
  let parts := createParts target
  let lines : List (List Char) :=
    (if content ≠ [] ∧ content.getLast? ≠ some '\n' then [([] : List Char)] else [])
    ++ (parts.enum.flatMap (fun ih =>
          [List.replicate (ih.1 + 1) '#' ++ ' ' :: ih.2, []]))
    ++ [new_content]
  if content ≠ [] then content ++ '\n' :: joinLines lines
  else joinLines lines

/-!
## Frontmatter updates (`_update_frontmatter`)

The document-level YAML parsing and serialisation are performed by the
external `python-frontmatter` library (not repository code); the repository's
own logic acts on the parsed metadata mapping `post.metadata`, which is
modelled here as an insertion-ordered association list.  `json.loads`
(standard library, also external) is modelled for the JSON value shapes the
engine exchanges: null, booleans, integers, strings and arrays.
-/

/-- A parsed metadata / JSON value. -/
inductive PyValue where
  | str (s : List Char)
  | int (n : Int)
  | bool (b : Bool)
  | null
  | list (l : List PyValue)

/-- An insertion-ordered dictionary, as Python's `dict`. -/
def Metadata := List (List Char × PyValue)

/-- `field in post.metadata` / `post.metadata[field]` (first binding wins;
`dict` keys are unique anyway). -/
def getMeta (m : Metadata) (field : List Char) : Option PyValue :=
  match m with
  | [] => none
  | kv :: rest => if kv.1 = field then some kv.2 else getMeta rest field

/-- `post.metadata[field] = v`: replace in place, or add at the end. -/
def setMeta (m : Metadata) (field : List Char) (v : PyValue) : Metadata :=
  match m with
  | [] => [(field, v)]
  | kv :: rest =>
    if kv.1 = field then (field, v) :: rest else kv :: setMeta rest field v

/-- Skip JSON whitespace. -/
def jsonWs (s : List Char) : List Char :=
  s.dropWhile (fun c => c = ' ' || c = '\t' || c = '\n' || c = '\r')

mutual

/-- One JSON value at the head of the input (fuelled recursive descent;
the fuel bounds the recursion depth).  Returns the value and the remaining
input. -/
def jsonValue : Nat → List Char → Option (PyValue × List Char)
  | 0, _ => none
  | fuel + 1, s =>
    match jsonWs s with
    | 'n' :: 'u' :: 'l' :: 'l' :: rest => some (.null, rest)
    | 't' :: 'r' :: 'u' :: 'e' :: rest => some (.bool true, rest)
    | 'f' :: 'a' :: 'l' :: 's' :: 'e' :: rest => some (.bool false, rest)
    | '"' :: rest =>
      let str := rest.takeWhile (fun c => c ≠ '"' && c ≠ '\\')
      match rest.drop str.length with
      | '"' :: rest2 => some (.str str, rest2)
      | _ => none
    | '[' :: rest => jsonArray fuel rest
    | '-' :: rest =>
      let ds := rest.takeWhile Char.isDigit
      if ds = [] then none
      else some (.int (-(digitsVal ds : Int)), rest.drop ds.length)
    | c :: rest =>
      if c.isDigit then
        let ds := (c :: rest).takeWhile Char.isDigit
        some (.int (digitsVal ds), (c :: rest).drop ds.length)
      else none
    | [] => none

/-- Elements of a JSON array after the opening bracket. -/
def jsonArray : Nat → List Char → Option (PyValue × List Char)
  | 0, _ => none
  | fuel + 1, s =>
    match jsonWs s with
    | ']' :: rest => some (.list [], rest)
    | _ =>
      match jsonValue fuel s with
      | none => none
      | some (v, rest) =>
        match jsonWs rest with
        | ']' :: rest2 => some (.list [v], rest2)
        | ',' :: rest2 =>
          match jsonArray fuel rest2 with
          | some (.list vs, rest3) => some (.list (v :: vs), rest3)
          | _ => none
        | _ => none

end

/-- `json.loads(s)` (modelled; external standard library): parse one value
and require only whitespace after it. -/
def pyJsonLoads (s : List Char) : Option PyValue :=
  match jsonValue (s.length + 1) s with
  | some (v, rest) => if jsonWs rest = [] then some v else none
  | none => none

/-- The str-to-JSON coercion step of `_update_frontmatter`. -/
def coerceValue (v : PyValue) : PyValue :=
  match v with
  | .str s =>
    match pyJsonLoads s with
    | some w => w
    | none => .str s
  | w => w

/-- `_update_frontmatter`, at the level of the parsed metadata mapping:
everything the function does between `frontmatter.loads` and
`frontmatter.dumps`. -/
def updateFrontmatterMeta (meta : Metadata) (field : List Char)
    (value : PyValue) (operation : List Char) : Except PatchError Metadata :=
  if operation = ("prepend").toList then
    .error (.invalidTarget
      ("Operation 'prepend' not supported for frontmatter. Use 'replace' or 'append'.").toList)
  else
    let value := coerceValue value
    if operation = ("replace").toList then .ok (setMeta meta field value)
    else if operation = ("append").toList then
      let meta1 :=
        if (getMeta meta field).isNone then setMeta meta field (.list []) else meta
      match getMeta meta1 field with
      | some (.list l) =>
        match value with
        | .list new => .ok (setMeta meta1 field (.list (l ++ new)))
        | v => .ok (setMeta meta1 field (.list (l ++ [v])))
      | some _ =>
        .error (.invalidTarget
          (("Cannot append to non-list field: ").toList ++ field))
      | none =>
        -- unreachable: the field was initialised above when absent
        .error (.invalidTarget field)
    else
      .error (.invalidTarget
        (("Invalid operation for frontmatter: ").toList ++ operation))

/-!
## The entry point (`apply_patch`)
-/

/-- `apply_patch(content, operation, target_type, target, new_content,
create_if_missing)` for the `"block"` and `"heading"` target types.
The Python entry point checks `target_type == "frontmatter"` first and
delegates to `_update_frontmatter`; that branch lives entirely in the
external frontmatter codec apart from the metadata logic modelled by
`updateFrontmatterMeta`, so it is not part of this document-level model. -/
def applyPatch (content operation target_type target new_content : List Char)
    (create_if_missing : Bool := false) : Except PatchError (List Char) :=
  if target_type = ("block").toList then do
    let position ← findBlockTarget content target
    applyAtPosition content position new_content operation
  else if target_type = ("heading").toList then do
    let position ← findHeadingTarget content target
    match position with
    | none =>
      if create_if_missing then pure (createHeading content target new_content)
      else .error (.targetNotFound (("Heading not found: ").toList ++ target))
    | some pos => applyAtPosition content pos new_content operation
  else
    .error (.invalidTarget
      (("Invalid target type: ").toList ++ target_type ++
        (". Must be 'heading', 'block', or 'frontmatter'").toList))

/-- Kernel-evaluable version of `applyPatch`. -/
def applyPatchF (fuel : Nat)
    (content operation target_type target new_content : List Char)
    (create_if_missing : Bool := false) : Except PatchError (List Char) :=
  if target_type = ("block").toList then do
    let position ← findBlockTarget content target
    applyAtPosition content position new_content operation
  else if target_type = ("heading").toList then do
    let position ← findHeadingTargetF fuel content target
    match position with
    | none =>
      if create_if_missing then pure (createHeading content target new_content)
      else .error (.targetNotFound (("Heading not found: ").toList ++ target))
    | some pos => applyAtPosition content pos new_content operation
  else
    .error (.invalidTarget
      (("Invalid target type: ").toList ++ target_type ++
        (". Must be 'heading', 'block', or 'frontmatter'").toList))

theorem applyPatch_eval (fuel : Nat)
    {content operation target_type target new_content : List Char}
    {create_if_missing : Bool}
    (h : sizeOf (parseHeadingHierarchy content) ≤ fuel) :
    applyPatch content operation target_type target new_content
        create_if_missing =
      applyPatchF fuel content operation target_type target new_content
        create_if_missing := by
  unfold applyPatch applyPatchF
  rw [findHeadingTarget_eval fuel h]

/-!
## Supporting lemmas
-/

theorem getMeta_setMeta (m : Metadata) (f : List Char) (v : PyValue) :
    getMeta (setMeta m f v) f = some v := by
  induction m with
  | nil => simp [setMeta, getMeta]
  | cons kv rest ih =>
    by_cases h : kv.1 = f
    · simp [setMeta, getMeta, h]
    · simp [setMeta, getMeta, h, ih]

theorem setMeta_setMeta (m : Metadata) (f : List Char) (v w : PyValue) :
    setMeta (setMeta m f v) f w = setMeta m f w := by
  induction m with
  | nil => simp [setMeta]
  | cons kv rest ih =>
    by_cases h : kv.1 = f
    · simp [setMeta, h]
    · simp [setMeta, h, ih]

/-- Structure of a successful block-target resolution: a single-line position
with `start_col = 0`, a non-negative `end_col`, and a line index inside the
scanned list. -/
theorem findBlockInLines_ok (block_id : List Char) :
    ∀ (ls : List (List Char)) (i : Nat) (p : BlockPosition),
      findBlockInLines block_id i ls = some p →
      p.end_line = p.start_line ∧ p.start_col = 0 ∧ 0 ≤ p.end_col ∧
        i ≤ p.start_line ∧ p.start_line - i < ls.length := by
  intro ls
  induction ls with
  | nil => intro i p h; simp [findBlockInLines] at h
  | cons ln rest ih =>
    intro i p h
    cases hb : lineBlockId ln with
    | none =>
      simp only [findBlockInLines, hb] at h
      have := ih (i + 1) p h
      simp only [List.length_cons]
      omega
    | some sb =>
      simp only [findBlockInLines, hb] at h
      by_cases hid : sb.2 = block_id
      · rw [if_pos hid] at h
        have hp := (Option.some.inj h).symm
        subst hp
        refine ⟨rfl, rfl, ?_, Nat.le_refl i, by simp⟩
        split <;> simp
      · rw [if_neg hid] at h
        have := ih (i + 1) p h
        simp only [List.length_cons]
        omega

theorem findBlockTarget_ok {content block_id : List Char} {p : BlockPosition}
    (h : findBlockTarget content block_id = .ok p) :
    p.end_line = p.start_line ∧ p.start_col = 0 ∧ 0 ≤ p.end_col ∧
      p.start_line < (splitLines content).length := by
  unfold findBlockTarget at h
  cases hb : findBlockInLines block_id 0 (splitLines content) with
  | none => rw [hb] at h; exact absurd h (by simp)
  | some q =>
    rw [hb] at h
    have hq : q = p := Except.ok.inj h
    subst hq
    have := findBlockInLines_ok block_id (splitLines content) 0 q hb
    exact ⟨this.1, this.2.1, this.2.2.1, by omega⟩

/-- Splitting a joined list whose first block of lines is newline-free
recovers that block unchanged. -/
theorem splitLines_joinLines_append (A rest : List (List Char))
    (hA : ∀ l ∈ A, '\n' ∉ l) (hrest : rest ≠ []) :
    splitLines (joinLines (A ++ rest)) = A ++ splitLines (joinLines rest) := by
  induction A with
  | nil => simp
  | cons l A' ih =>
    have hne : A' ++ rest ≠ [] := by
      intro hx
      exact hrest (List.append_eq_nil.mp hx).2
    rw [List.cons_append, joinLines_cons_of_ne l (A' ++ rest) hne]
    rw [splitLines_append_newline l (hA l (by simp))]
    rw [ih (fun x hx => hA x (List.mem_cons_of_mem l hx))]
    simp

/-!
## Heading events

The parser's state changes only at lines matching `HEADING_PATTERN`;
`headingEventsFrom off lines` lists those lines as `(index, level, text)`
triples, indices counted from `off`.  `parseLinesAux` is a fold of
`parseStep` over these events.
-/

def headingEventsFrom (off : Nat) : List (List Char) →
    List (Nat × Nat × List Char)
  | [] => []
  | l :: ls =>
    (match headingMatch l with
     | some kt => [(off, kt.1, kt.2)]
     | none => []) ++ headingEventsFrom (off + 1) ls

theorem parseLinesAux_eq_foldl (L : Nat) :
    ∀ (ls : List (List Char)) (st : ParseState) (i : Nat),
      parseLinesAux L st i ls =
        List.foldl (parseStep L) st (headingEventsFrom i ls) := by
  intro ls
  induction ls with
  | nil => intro st i; rfl
  | cons l ls ih =>
    intro st i
    simp only [parseLinesAux, headingEventsFrom]
    cases h : headingMatch l with
    | none => simp [ih]
    | some kt => simp [ih]

theorem headingEventsFrom_append (off : Nat) (a b : List (List Char)) :
    headingEventsFrom off (a ++ b) =
      headingEventsFrom off a ++ headingEventsFrom (off + a.length) b := by
  induction a generalizing off with
  | nil => simp [headingEventsFrom]
  | cons l ls ih =>
    simp only [List.cons_append, headingEventsFrom, List.length_cons,
      List.append_eq]
    rw [ih (off + 1), List.append_assoc,
      show off + 1 + ls.length = off + (ls.length + 1) from by omega]

theorem headingEventsFrom_shift (d : Nat) :
    ∀ (off : Nat) (ls : List (List Char)),
      headingEventsFrom (off + d) ls =
        (headingEventsFrom off ls).map (fun e => (e.1 + d, e.2)) := by
  intro off ls
  induction ls generalizing off with
  | nil => simp [headingEventsFrom]
  | cons l ls ih =>
    simp only [headingEventsFrom]
    rw [show off + d + 1 = off + 1 + d from by omega]
    cases h : headingMatch l with
    | none => simpa using ih (off + 1)
    | some kt =>
      simp only [List.map_append]
      rw [ih (off + 1)]
      simp

theorem headingEventsFrom_none (off : Nat) (ls : List (List Char))
    (h : ∀ l ∈ ls, headingMatch l = none) :
    headingEventsFrom off ls = [] := by
  induction ls generalizing off with
  | nil => rfl
  | cons l ls ih =>
    simp only [headingEventsFrom, h l (by simp)]
    exact ih (off + 1) (fun x hx => h x (List.mem_cons_of_mem l hx))

theorem headingEventsFrom_bounds (off : Nat) (ls : List (List Char)) :
    ∀ e ∈ headingEventsFrom off ls, off ≤ e.1 ∧ e.1 < off + ls.length := by
  induction ls generalizing off with
  | nil => simp [headingEventsFrom]
  | cons l ls ih =>
    intro e he
    simp only [headingEventsFrom] at he
    rcases List.mem_append.mp he with h | h
    · cases hm : headingMatch l with
      | none => rw [hm] at h; simp at h
      | some kt =>
        rw [hm] at h
        simp at h
        subst h
        simp
    · have := ih (off + 1) e h
      simp only [List.length_cons]
      omega

theorem headingMatch_level {l : List Char} {k : Nat} {t : List Char}
    (h : headingMatch l = some (k, t)) : 1 ≤ k ∧ k ≤ 6 := by
  unfold headingMatch at h
  by_cases hk : 1 ≤ (l.takeWhile (fun c => c = '#')).length ∧
      (l.takeWhile (fun c => c = '#')).length ≤ 6
  · rw [if_pos hk] at h
    cases ht : headingText (l.drop (l.takeWhile (fun c => c = '#')).length) with
    | none => rw [ht] at h; simp at h
    | some txt =>
      rw [ht] at h
      simp at h
      omega
  · rw [if_neg hk] at h
    simp at h

theorem headingEventsFrom_levels (off : Nat) (ls : List (List Char)) :
    ∀ e ∈ headingEventsFrom off ls, 1 ≤ e.2.1 ∧ e.2.1 ≤ 6 := by
  induction ls generalizing off with
  | nil => simp [headingEventsFrom]
  | cons l ls ih =>
    intro e he
    simp only [headingEventsFrom] at he
    rcases List.mem_append.mp he with h | h
    · cases hm : headingMatch l with
      | none => rw [hm] at h; simp at h
      | some kt =>
        obtain ⟨k, t⟩ := kt
        rw [hm] at h
        simp at h
        subst h
        exact headingMatch_level hm
    · exact ih (off + 1) e h

theorem headingEventsFrom_sorted (off : Nat) (ls : List (List Char)) :
    List.Pairwise (fun a b => a.1 < b.1) (headingEventsFrom off ls) := by
  induction ls generalizing off with
  | nil => simp [headingEventsFrom]
  | cons l ls ih =>
    simp only [headingEventsFrom]
    cases hm : headingMatch l with
    | none => simpa using ih (off + 1)
    | some kt =>
      simp only [List.singleton_append, List.pairwise_cons]
      refine ⟨?_, ih (off + 1)⟩
      intro e he
      exact (headingEventsFrom_bounds (off + 1) ls e he).1

/-- A line whose text matches `HEADING_PATTERN` appears among the events. -/
theorem headingEventsFrom_complete (off : Nat) (ls : List (List Char)) :
    ∀ (j : Nat) (kt : Nat × List Char), j < ls.length →
      headingMatch (ls.getD j []) = some kt →
      (off + j, kt.1, kt.2) ∈ headingEventsFrom off ls := by
  induction ls generalizing off with
  | nil => intro j kt hj; simp at hj
  | cons l ls ih =>
    intro j kt hj hm
    cases j with
    | zero =>
      simp only [List.getD_cons_zero] at hm
      simp [headingEventsFrom, hm]
    | succ j' =>
      simp only [List.getD_cons_succ] at hm
      have := ih (off + 1) j' kt (by simpa using hj) hm
      simp only [headingEventsFrom]
      refine List.mem_append.mpr (Or.inr ?_)
      have harith : off + (j' + 1) = off + 1 + j' := by omega
      rw [harith]
      exact this

/-!
## The parser invariant

`dl` is the list of processed heading line indices, in increasing order.
For every node and frame, the end of its own content region is determined by
the next heading line after its start (`succLine`), with the document end as
default.
-/

/-- First element of `dl` greater than `x` (`dl` is kept sorted). -/
def succLine (dl : List Nat) (x : Nat) : Option Nat :=
  dl.find? (fun y => x < y)

theorem succLine_append_one (dl : List Nat) (x i : Nat) :
    succLine (dl ++ [i]) x =
      (succLine dl x).or (if x < i then some i else none) := by
  unfold succLine
  rw [List.find?_append]
  congr 1
  by_cases hi : x < i
  · rw [List.find?_cons_of_pos _ (by simpa using hi), if_pos hi]
  · rw [List.find?_cons_of_neg _ (by simpa using hi), if_neg hi]
    rfl

theorem succLine_append_some {dl : List Nat} {x m : Nat} (i : Nat)
    (h : succLine dl x = some m) :
    succLine (dl ++ [i]) x = some m := by
  rw [succLine_append_one, h]
  rfl

theorem succLine_append_none {dl : List Nat} {x : Nat} {i : Nat}
    (h : succLine dl x = none) (hxi : x < i) :
    succLine (dl ++ [i]) x = some i := by
  rw [succLine_append_one, h, if_pos hxi]
  rfl

theorem succLine_mem {dl : List Nat} {x m : Nat}
    (h : succLine dl x = some m) : m ∈ dl ∧ x < m := by
  unfold succLine at h
  refine ⟨List.mem_of_find?_eq_some h, ?_⟩
  have := List.find?_some h
  simpa using this

theorem succLine_min :
    ∀ (dl : List Nat), List.Pairwise (· < ·) dl →
      ∀ {x m : Nat}, succLine dl x = some m → ∀ j ∈ dl, x < j → m ≤ j := by
  intro dl
  induction dl with
  | nil => intro _ x m h; simp [succLine, List.find?] at h
  | cons d dl ih =>
    intro hs x m h j hj hxj
    unfold succLine at h
    by_cases hd : x < d
    · rw [List.find?_cons_of_pos _ (by simpa using hd)] at h
      have hm : m = d := by simpa using h.symm
      subst hm
      rcases List.mem_cons.mp hj with rfl | hj'
      · exact Nat.le_refl j
      · exact Nat.le_of_lt ((List.pairwise_cons.mp hs).1 j hj')
    · rw [List.find?_cons_of_neg _ (by simpa using hd)] at h
      rcases List.mem_cons.mp hj with rfl | hj'
      · exact absurd hxj hd
      · exact ih (List.pairwise_cons.mp hs).2 h j hj' hxj

theorem succLine_none {dl : List Nat} {x : Nat}
    (h : succLine dl x = none) : ∀ j ∈ dl, ¬x < j := by
  intro j hj
  unfold succLine at h
  have := List.find?_eq_none.mp h j hj
  simpa using this

/-- The line where a node's own content region ends: before the first child,
or the node's recorded `end_line`. -/
def contentEndOf (n : HeadingNode) : Nat :=
  match n.children with
  | [] => n.end_line
  | c :: _ => c.start_line - 1

/-- The content-region boundary in successor form: one line after the
region's end, i.e. the first child's start or `end_line + 1`. -/
def regionSucc (n : HeadingNode) : Nat :=
  match n.children with
  | [] => n.end_line + 1
  | c :: _ => c.start_line

/-- All facts the invariant maintains about a finished node during the parse
(`dl` the processed heading lines so far, `L` the number of lines). -/
inductive NodeDone (L : Nat) (dl : List Nat) : HeadingNode → Prop where
  | mk {t : List Char} {lv s e : Nat} {ch : List HeadingNode}
      (hlv1 : 1 ≤ lv) (hlv6 : lv ≤ 6) (hsL : s < L) (hse : s ≤ e)
      (heL : e < L)
      (hsucc : ∃ m, succLine dl s = some m ∧
        regionSucc (.mk t lv s e ch) = m)
      (hch : ∀ c ∈ ch, lv < c.level ∧ s < c.start_line)
      (hrec : ∀ c ∈ ch, NodeDone L dl c)
      (hsort : List.Pairwise (fun a b => a.start_line < b.start_line) ch) :
      NodeDone L dl (.mk t lv s e ch)

/-- Facts about every node of the final forest: as `NodeDone`, except that a
node whose start has no later heading line runs to the document end. -/
inductive NodeFinal (L : Nat) (dl : List Nat) : HeadingNode → Prop where
  | mk {t : List Char} {lv s e : Nat} {ch : List HeadingNode}
      (hlv1 : 1 ≤ lv) (hlv6 : lv ≤ 6) (hsL : s < L) (hse : s ≤ e)
      (heL : e < L)
      (hsucc : regionSucc (.mk t lv s e ch) = (succLine dl s).getD L)
      (hch : ∀ c ∈ ch, lv < c.level ∧ s < c.start_line)
      (hrec : ∀ c ∈ ch, NodeFinal L dl c)
      (hsort : List.Pairwise (fun a b => a.start_line < b.start_line) ch) :
      NodeFinal L dl (.mk t lv s e ch)

theorem NodeDone.mono {L : Nat} {dl : List Nat} {i : Nat} :
    ∀ {n : HeadingNode}, NodeDone L dl n → NodeDone L (dl ++ [i]) n := by
  intro n h
  induction h with
  | mk hlv1 hlv6 hsL hse heL hsucc hch _ hsort ih =>
    refine NodeDone.mk hlv1 hlv6 hsL hse heL ?_ hch ih hsort
    obtain ⟨m, hm, hr⟩ := hsucc
    exact ⟨m, succLine_append_some i hm, hr⟩

theorem NodeDone.toFinal {L : Nat} {dl : List Nat} :
    ∀ {n : HeadingNode}, NodeDone L dl n → NodeFinal L dl n := by
  intro n h
  induction h with
  | mk hlv1 hlv6 hsL hse heL hsucc hch _ hsort ih =>
    refine NodeFinal.mk hlv1 hlv6 hsL hse heL ?_ hch ih hsort
    obtain ⟨m, hm, hr⟩ := hsucc
    rw [hm] at *
    simpa using hr

/-- Per-frame facts. -/
def frameBase (L : Nat) (dl : List Nat) (f : Frame) : Prop :=
  1 ≤ f.level ∧ f.level ≤ 6 ∧ f.start_line < L ∧
  f.start_line ≤ f.end_line ∧ f.end_line < L ∧ f.start_line ∈ dl ∧
  (∀ c ∈ f.children, f.level < c.level ∧ f.start_line < c.start_line ∧
    NodeDone L dl c) ∧
  List.Pairwise (fun a b => a.start_line < b.start_line) f.children

/-- Relation between a frame `f` and the frame `g` directly below it. -/
def stackRel (dl : List Nat) (f g : Frame) : Prop :=
  g.level < f.level ∧ g.start_line < f.start_line ∧
  succLine dl g.start_line =
    some (match g.children with
      | [] => f.start_line
      | c :: _ => c.start_line) ∧
  (∀ c ∈ g.children, c.start_line < f.start_line)

theorem frameBase_mono {L : Nat} {dl : List Nat} {i : Nat} {f : Frame}
    (h : frameBase L dl f) : frameBase L (dl ++ [i]) f := by
  obtain ⟨h1, h2, h3, h4, h5, h6, h7, h8⟩ := h
  exact ⟨h1, h2, h3, h4, h5, List.mem_append.mpr (Or.inl h6),
    fun c hc => ⟨(h7 c hc).1, (h7 c hc).2.1, (h7 c hc).2.2.mono⟩, h8⟩


theorem stackRel_mono {dl : List Nat} {i : Nat} {f g : Frame}
    (h : stackRel dl f g) : stackRel (dl ++ [i]) f g := by
  obtain ⟨h1, h2, h3, h4⟩ := h
  exact ⟨h1, h2, succLine_append_some i h3, h4⟩

/-- The whole-state invariant. -/
structure StInv (L : Nat) (dl : List Nat) (st : ParseState) : Prop where
  rootsDone : ∀ n ∈ st.roots, NodeDone L dl n
  rootsSorted : List.Pairwise
    (fun a b => a.start_line < b.start_line) st.roots
  rootsBelow : ∀ n ∈ st.roots, ∀ f ∈ st.stack,
    n.start_line < f.start_line
  frames : ∀ f ∈ st.stack, frameBase L dl f
  chain : List.Chain' (stackRel dl) st.stack
  top : match st.stack with
    | [] => st.roots = []
    | f :: _ => f.children = [] ∧ f.end_line = L - 1 ∧
        succLine dl f.start_line = none

/-- Invariant of the accumulated frame during the pop cascade of a new
heading at line `i`. -/
def popInv (L : Nat) (dl : List Nat) (i : Nat) (f : Frame) : Prop :=
  1 ≤ f.level ∧ f.level ≤ 6 ∧ f.start_line < L ∧ f.start_line < i ∧
  f.start_line ≤ f.end_line ∧ f.end_line < L ∧ f.start_line ∈ dl ∧
  (∀ c ∈ f.children, f.level < c.level ∧ f.start_line < c.start_line ∧
    c.start_line < i ∧ NodeDone L (dl ++ [i]) c) ∧
  List.Pairwise (fun a b => a.start_line < b.start_line) f.children ∧
  (f.children = [] → f.end_line = i - 1) ∧
  succLine (dl ++ [i]) f.start_line =
    some (match f.children with | [] => i | c :: _ => c.start_line)

theorem stackRel_congr_above {dl : List Nat} {a a' b : Frame}
    (hl : a'.level = a.level) (hs : a'.start_line = a.start_line)
    (h : stackRel dl a b) : stackRel dl a' b := by
  obtain ⟨h1, h2, h3, h4⟩ := h
  exact ⟨hl ▸ h1, hs ▸ h2, hs ▸ h3, hs ▸ h4⟩

/-- The frame closed during a pop (with `end_line := i - 1`), and the frame
closed when the stack empties (keeping its `end_line`), are both finished
nodes. -/
theorem popInv_close {L : Nat} {dl : List Nat} {i : Nat} {f : Frame}
    (hp : popInv L dl i f) (hiL : i < L) :
    NodeDone L (dl ++ [i]) (closeFrame f) ∧
      NodeDone L (dl ++ [i]) (closeFrame { f with end_line := i - 1 }) := by
  obtain ⟨t, lv, s, e, ch⟩ := f
  obtain ⟨h1, h2, h3, h4, h5, h6, h7, h8, h9, h10, h11⟩ := hp
  simp only [Frame.level, Frame.start_line, Frame.end_line,
    Frame.children] at h1 h2 h3 h4 h5 h6 h7 h8 h9 h10 h11
  constructor
  · show NodeDone L (dl ++ [i]) (.mk t lv s e ch)
    refine NodeDone.mk h1 h2 h3 h5 h6 ?_
      (fun c hc => ⟨(h8 c hc).1, (h8 c hc).2.1⟩)
      (fun c hc => (h8 c hc).2.2.2) h9
    cases ch with
    | nil =>
      refine ⟨i, h11, ?_⟩
      have he : e = i - 1 := h10 rfl
      show e + 1 = i
      omega
    | cons c cs =>
      exact ⟨c.start_line, h11, rfl⟩
  · show NodeDone L (dl ++ [i]) (.mk t lv s (i - 1) ch)
    refine NodeDone.mk h1 h2 h3 (by omega) (by omega) ?_
      (fun c hc => ⟨(h8 c hc).1, (h8 c hc).2.1⟩)
      (fun c hc => (h8 c hc).2.2.2) h9
    cases ch with
    | nil =>
      refine ⟨i, h11, ?_⟩
      show (i - 1) + 1 = i
      omega
    | cons c cs =>
      exact ⟨c.start_line, h11, rfl⟩

/-- One cascade of `popWhileAux`. -/
theorem popWhileAux_spec (L : Nat) (dl : List Nat) (i lv : Nat)
    (hnew : ∀ x ∈ dl, x < i) (hiL : i < L) :
    ∀ (below : List Frame) (f : Frame) (roots : List HeadingNode),
      popInv L dl i f →
      (∀ g ∈ below, frameBase L dl g) →
      List.Chain' (stackRel dl) (f :: below) →
      (∀ n ∈ roots, NodeDone L (dl ++ [i]) n) →
      List.Pairwise (fun a b => a.start_line < b.start_line) roots →
      (∀ n ∈ roots, ∀ g ∈ f :: below, n.start_line < g.start_line) →
      ((popWhileAux i lv roots f below).2 = [] →
        (∀ n ∈ (popWhileAux i lv roots f below).1,
            NodeDone L (dl ++ [i]) n) ∧
        List.Pairwise (fun a b => a.start_line < b.start_line)
          (popWhileAux i lv roots f below).1 ∧
        (∀ n ∈ (popWhileAux i lv roots f below).1, n.start_line < i)) ∧
      (∀ (f2 : Frame) (below2 : List Frame),
        (popWhileAux i lv roots f below).2 = f2 :: below2 →
        (popWhileAux i lv roots f below).1 = roots ∧
        popInv L dl i f2 ∧ f2.level < lv ∧
        (∀ g ∈ below2, frameBase L dl g) ∧
        List.Chain' (stackRel dl) (f2 :: below2) ∧
        (∀ n ∈ roots, ∀ g ∈ f2 :: below2, n.start_line < g.start_line)) := by
  intro below
  induction below with
  | nil =>
    intro f roots hp hbel hch hr hrs hrb
    by_cases hpop : lv ≤ f.level
    · simp only [popWhileAux, if_pos hpop]
      refine ⟨fun _ => ⟨?_, ?_, ?_⟩, fun f2 below2 h2 => by simp at h2⟩
      · intro n hn
        rcases List.mem_append.mp hn with h | h
        · exact hr n h
        · have : n = closeFrame f := by simpa using h
          subst this
          exact (popInv_close hp hiL).1
      · rw [List.pairwise_append]
        refine ⟨hrs, by simp, ?_⟩
        intro a ha b hb
        have : b = closeFrame f := by simpa using hb
        subst this
        exact hrb a ha f (by simp)
      · intro n hn
        rcases List.mem_append.mp hn with h | h
        · exact Nat.lt_trans (hrb n h f (by simp)) hp.2.2.2.1
        · have : n = closeFrame f := by simpa using h
          subst this
          exact hp.2.2.2.1
    · simp only [popWhileAux, if_neg hpop]
      refine ⟨fun h => by simp at h, fun f2 below2 h2 => ?_⟩
      injection h2 with ha hb
      subst ha
      subst hb
      exact ⟨trivial, hp, by omega, by simp, hch, hrb⟩
  | cons g gs ih =>
    intro f roots hp hbel hch hr hrs hrb
    by_cases hpop : lv ≤ f.level
    · simp only [popWhileAux, if_pos hpop]
      have hrel : stackRel dl f g := (List.chain'_cons.mp hch).1
      have hbg : frameBase L dl g := hbel g (by simp)
      set nf := closeFrame { f with end_line := i - 1 } with hnf
      have hnfd : NodeDone L (dl ++ [i]) nf := (popInv_close hp hiL).2
      have hnfstart : nf.start_line = f.start_line := by
        simp [hnf, closeFrame, HeadingNode.start_line, Frame.start_line]
      have hnflevel : nf.level = f.level := by
        simp [hnf, closeFrame, HeadingNode.level, Frame.level]
      set g' : Frame := { g with children := g.children ++ [nf] } with hg'
      have hpg : popInv L dl i g' := by
        obtain ⟨b1, b2, b3, b4, b5, b6, b7, b8⟩ := hbg
        obtain ⟨r1, r2, r3, r4⟩ := hrel
        refine ⟨b1, b2, b3, hnew _ b6, b4, b5, b6, ?_, ?_, ?_, ?_⟩
        · intro c hc
          rcases List.mem_append.mp hc with h | h
          · exact ⟨(b7 c h).1, (b7 c h).2.1,
              Nat.lt_trans (r4 c h) hp.2.2.2.1, (b7 c h).2.2.mono⟩
          · have : c = nf := by simpa using h
            subst this
            exact ⟨hnflevel ▸ r1, hnfstart ▸ r2, hnfstart ▸ hp.2.2.2.1, hnfd⟩
        · rw [List.pairwise_append]
          refine ⟨b8, by simp, ?_⟩
          intro a ha b hb
          have : b = nf := by simpa using hb
          subst this
          rw [hnfstart]
          exact r4 a ha
        · intro hemp
          exact absurd hemp (by simp [hg'])
        · have : (match g.children ++ [nf] with
              | [] => i
              | c :: _ => c.start_line) =
              (match g.children with
              | [] => f.start_line
              | c :: _ => c.start_line) := by
            cases g.children with
            | nil => simp [hnfstart]
            | cons c cs => simp
          rw [show g'.children = g.children ++ [nf] from rfl,
            show g'.start_line = g.start_line from rfl, this]
          exact succLine_append_some i r3
      have hch' : List.Chain' (stackRel dl) (g' :: gs) := by
        have htail : List.Chain' (stackRel dl) (g :: gs) :=
          (List.chain'_cons.mp hch).2
        cases gs with
        | nil => simp
        | cons h hs =>
          rw [List.chain'_cons] at htail ⊢
          exact ⟨stackRel_congr_above rfl rfl htail.1, htail.2⟩
      have hout := ih g' roots hpg
        (fun x hx => hbel x (List.mem_cons_of_mem g hx)) hch' hr hrs
        (by
          intro n hn x hx
          rcases List.mem_cons.mp hx with rfl | hx'
          · exact hrb n hn g (by simp)
          · exact hrb n hn x (by simp [hx']))
      exact hout
    · simp only [popWhileAux, if_neg hpop]
      refine ⟨fun h => by simp at h, fun f2 below2 h2 => ?_⟩
      injection h2 with ha hb
      subst ha
      subst hb
      exact ⟨trivial, hp, by omega, hbel, hch, hrb⟩

theorem succLine_top_none {dl : List Nat} {i : Nat}
    (hnew : ∀ x ∈ dl, x < i) : succLine (dl ++ [i]) i = none := by
  unfold succLine
  rw [List.find?_eq_none]
  intro x hx
  rcases List.mem_append.mp hx with h | h
  · simpa using Nat.not_lt.mpr (Nat.le_of_lt (hnew x h))
  · have : x = i := by simpa using h
    subst this
    simp

theorem popInv_toFrameBase {L : Nat} {dl : List Nat} {i : Nat} {f : Frame}
    (hp : popInv L dl i f) : frameBase L (dl ++ [i]) f := by
  obtain ⟨h1, h2, h3, h4, h5, h6, h7, h8, h9, h10, h11⟩ := hp
  exact ⟨h1, h2, h3, h5, h6, List.mem_append.mpr (Or.inl h7),
    fun c hc => ⟨(h8 c hc).1, (h8 c hc).2.1, (h8 c hc).2.2.2⟩, h9⟩

theorem newFrameBase {L : Nat} {dl : List Nat} {i lv : Nat} {t : List Char}
    (hiL : i < L) (hlv1 : 1 ≤ lv) (hlv6 : lv ≤ 6) :
    frameBase L (dl ++ [i]) ⟨t, lv, i, L - 1, []⟩ := by
  refine ⟨hlv1, hlv6, hiL, by simp [Frame.start_line, Frame.end_line]; omega,
    by simp [Frame.end_line]; omega, by simp [Frame.start_line],
    by simp [Frame.children], by simp [Frame.children]⟩

theorem parseStep_nil (L i lv : Nat) (t : List Char) (st : ParseState)
    (h : st.stack = []) :
    parseStep L st (i, lv, t) =
      ⟨st.roots, [⟨t, lv, i, L - 1, []⟩]⟩ := by
  unfold parseStep
  rw [h]
  rfl

theorem parseStep_cons (L i lv : Nat) (t : List Char) (st : ParseState)
    (f : Frame) (rest : List Frame) (h : st.stack = f :: rest) :
    parseStep L st (i, lv, t) =
      ⟨(popWhileAux i lv st.roots { f with end_line := i - 1 } rest).1,
        ⟨t, lv, i, L - 1, []⟩ ::
          (popWhileAux i lv st.roots { f with end_line := i - 1 } rest).2⟩ := by
  unfold parseStep
  rw [h]
  rfl

/-- One parser step preserves the invariant. -/
theorem stInv_step (L : Nat) (dl : List Nat) (st : ParseState)
    (i lv : Nat) (t : List Char)
    (hinv : StInv L dl st) (hnew : ∀ x ∈ dl, x < i) (hiL : i < L)
    (hlv1 : 1 ≤ lv) (hlv6 : lv ≤ 6) :
    StInv L (dl ++ [i]) (parseStep L st (i, lv, t)) := by
  obtain ⟨hroots, hrsort, hrb, hfr, hch, htop⟩ := hinv
  cases hst : st.stack with
  | nil =>
    have hre : st.roots = [] := by
      have h := htop; rw [hst] at h; exact h
    rw [parseStep_nil L i lv t st hst, hre]
    refine ⟨by simp, by simp, by simp, ?_, by simp, ?_⟩
    · intro g hg
      have : g = ⟨t, lv, i, L - 1, []⟩ := by simpa using hg
      subst this
      exact newFrameBase hiL hlv1 hlv6
    · exact ⟨rfl, rfl, succLine_top_none hnew⟩
  | cons f rest =>
    rw [parseStep_cons L i lv t st f rest hst]
    have htf : f.children = [] ∧ f.end_line = L - 1 ∧
        succLine dl f.start_line = none := by
      have h := htop; rw [hst] at h; exact h
    have hbf : frameBase L dl f := hfr f (by rw [hst]; simp)
    have hfsi : f.start_line < i := hnew _ hbf.2.2.2.2.2.1
    have hpf : popInv L dl i { f with end_line := i - 1 } := by
      obtain ⟨b1, b2, b3, b4, b5, b6, b7, b8⟩ := hbf
      refine ⟨b1, b2, b3, hfsi, (by show f.start_line ≤ i - 1; omega),
        (by show i - 1 < L; omega), b6, ?_, ?_, ?_, ?_⟩
      · intro c hc
        rw [show Frame.children { f with end_line := i - 1 } = f.children
          from rfl, htf.1] at hc
        simp at hc
      · rw [show Frame.children { f with end_line := i - 1 } = f.children
          from rfl, htf.1]
        simp
      · intro _; rfl
      · rw [show Frame.children { f with end_line := i - 1 } = f.children
          from rfl, htf.1]
        exact succLine_append_none htf.2.2 hfsi
    have hchf : List.Chain' (stackRel dl)
        ({ f with end_line := i - 1 } :: rest) := by
      have h := hch; rw [hst] at h
      cases rest with
      | nil => simp
      | cons g gs =>
        rw [List.chain'_cons] at h ⊢
        exact ⟨stackRel_congr_above rfl rfl h.1, h.2⟩
    have hspec := popWhileAux_spec L dl i lv hnew hiL rest
      { f with end_line := i - 1 } st.roots hpf
      (fun g hg => hfr g (by rw [hst]; exact List.mem_cons_of_mem f hg))
      hchf
      (fun n hn => (hroots n hn).mono)
      hrsort
      (by
        intro n hn g hg
        rcases List.mem_cons.mp hg with rfl | hg'
        · exact hrb n hn f (by rw [hst]; simp)
        · exact hrb n hn g (by rw [hst]; simp [hg']))
    cases hs2 : (popWhileAux i lv st.roots
        { f with end_line := i - 1 } rest).2 with
    | nil =>
      obtain ⟨hrd, hrs2, hri⟩ := hspec.1 hs2
      refine ⟨hrd, hrs2, ?_, ?_, by simp, ?_⟩
      · intro n hn g hg
        have : g = ⟨t, lv, i, L - 1, []⟩ := by simpa using hg
        subst this
        exact hri n hn
      · intro g hg
        have : g = ⟨t, lv, i, L - 1, []⟩ := by simpa using hg
        subst this
        exact newFrameBase hiL hlv1 hlv6
      · exact ⟨rfl, rfl, succLine_top_none hnew⟩
    | cons f2 below2 =>
      obtain ⟨hre, hp2, hl2, hbel2, hch2, hrb2⟩ := hspec.2 f2 below2 hs2
      rw [hre]
      refine ⟨fun n hn => (hroots n hn).mono, hrsort, ?_, ?_, ?_, ?_⟩
      · intro n hn g hg
        rcases List.mem_cons.mp hg with rfl | hg'
        · show n.start_line < i
          exact Nat.lt_trans (hrb n hn f (by rw [hst]; simp)) hfsi
        · exact hrb2 n hn g hg'
      · intro g hg
        rcases List.mem_cons.mp hg with rfl | hg'
        · exact newFrameBase hiL hlv1 hlv6
        · rcases List.mem_cons.mp hg' with rfl | hg''
          · exact popInv_toFrameBase hp2
          · exact frameBase_mono (hbel2 g hg'')
      · rw [List.chain'_cons]
        refine ⟨?_, ?_⟩
        · refine ⟨hl2, hp2.2.2.2.1, ?_, ?_⟩
          · have h11 := hp2.2.2.2.2.2.2.2.2.2.2
            rw [h11]
          · intro c hc
            exact (hp2.2.2.2.2.2.2.2.1 c hc).2.2.1
        · exact hch2.imp (fun a b hab => stackRel_mono hab)
      · exact ⟨rfl, rfl, succLine_top_none hnew⟩

theorem stInv_fold (L : Nat) :
    ∀ (evs : List (Nat × Nat × List Char)) (dl : List Nat) (st : ParseState),
      StInv L dl st →
      (∀ e ∈ evs, e.1 < L ∧ 1 ≤ e.2.1 ∧ e.2.1 ≤ 6) →
      (∀ x ∈ dl, ∀ e ∈ evs, x < e.1) →
      List.Pairwise (fun a b => a.1 < b.1) evs →
      StInv L (dl ++ evs.map (fun e => e.1))
        (List.foldl (parseStep L) st evs) := by
  intro evs
  induction evs with
  | nil => intro dl st hinv _ _ _; simpa using hinv
  | cons e evs ih =>
    intro dl st hinv hb hlt hsort
    obtain ⟨i, lv, t⟩ := e
    have hstep := stInv_step L dl st i lv t hinv
      (fun x hx => hlt x hx (i, lv, t) (by simp))
      (hb (i, lv, t) (by simp)).1
      (hb (i, lv, t) (by simp)).2.1
      (hb (i, lv, t) (by simp)).2.2
    have hrest := ih (dl ++ [i]) (parseStep L st (i, lv, t)) hstep
      (fun x hx => hb x (List.mem_cons_of_mem _ hx))
      (by
        intro x hx e' he'
        rcases List.mem_append.mp hx with h | h
        · exact hlt x h e' (List.mem_cons_of_mem _ he')
        · have : x = i := by simpa using h
          subst this
          exact (List.pairwise_cons.mp hsort).1 e' he')
      (List.pairwise_cons.mp hsort).2
    simpa [List.append_assoc] using hrest

theorem getLastD_mem_cons {α : Type} :
    ∀ (l : List α) (a : α), l.getLastD a ∈ a :: l := by
  intro l
  induction l with
  | nil => intro a; simp [List.getLastD]
  | cons b bs ih =>
    intro a
    rw [List.getLastD_cons]
    exact List.mem_cons_of_mem a (ih b)

/-- Closing a frame whose facts are available gives a `NodeFinal` node. -/
theorem closeFrame_final {L : Nat} {dl : List Nat} {f : Frame}
    (h1 : 1 ≤ f.level) (h2 : f.level ≤ 6) (h3 : f.start_line < L)
    (h4 : f.start_line ≤ f.end_line) (h5 : f.end_line < L)
    (h6 : ∀ c ∈ f.children, f.level < c.level ∧ f.start_line < c.start_line)
    (h7 : ∀ c ∈ f.children, NodeFinal L dl c)
    (h8 : List.Pairwise (fun a b => a.start_line < b.start_line) f.children)
    (h9 : regionSucc (closeFrame f) = (succLine dl f.start_line).getD L) :
    NodeFinal L dl (closeFrame f) := by
  obtain ⟨t, lv, s, e, ch⟩ := f
  exact NodeFinal.mk h1 h2 h3 h4 h5 h9 h6 h7 h8

theorem closeAllAux_spec (L : Nat) (dl : List Nat) :
    ∀ (rest : List Frame) (f : Frame) (roots : List HeadingNode),
      1 ≤ f.level → f.level ≤ 6 → f.start_line < L →
      f.start_line ≤ f.end_line → f.end_line < L →
      (∀ c ∈ f.children, f.level < c.level ∧ f.start_line < c.start_line) →
      (∀ c ∈ f.children, NodeFinal L dl c) →
      List.Pairwise (fun a b => a.start_line < b.start_line) f.children →
      regionSucc (closeFrame f) = (succLine dl f.start_line).getD L →
      (∀ g ∈ rest, frameBase L dl g) →
      List.Chain' (stackRel dl) (f :: rest) →
      (∀ n ∈ roots, NodeFinal L dl n) →
      List.Pairwise (fun a b => a.start_line < b.start_line) roots →
      (∀ n ∈ roots, n.start_line < (rest.getLastD f).start_line) →
      (∀ n ∈ closeAllAux roots f rest, NodeFinal L dl n) ∧
      List.Pairwise (fun a b => a.start_line < b.start_line)
        (closeAllAux roots f rest) := by
  intro rest
  induction rest with
  | nil =>
    intro f roots h1 h2 h3 h4 h5 h6 h7 h8 h9 _ _ hr hrs hrb
    simp only [closeAllAux]
    constructor
    · intro n hn
      rcases List.mem_append.mp hn with h | h
      · exact hr n h
      · have : n = closeFrame f := by simpa using h
        subst this
        exact closeFrame_final h1 h2 h3 h4 h5 h6 h7 h8 h9
    · rw [List.pairwise_append]
      refine ⟨hrs, by simp, ?_⟩
      intro a ha b hb
      have : b = closeFrame f := by simpa using hb
      subst this
      simpa using hrb a ha
  | cons g gs ih =>
    intro f roots h1 h2 h3 h4 h5 h6 h7 h8 h9 hbel hch hr hrs hrb
    simp only [closeAllAux]
    set nf := closeFrame f with hnf
    have hnffin : NodeFinal L dl nf :=
      closeFrame_final h1 h2 h3 h4 h5 h6 h7 h8 h9
    have hrel : stackRel dl f g := (List.chain'_cons.mp hch).1
    obtain ⟨r1, r2, r3, r4⟩ := hrel
    have hbg : frameBase L dl g := hbel g (by simp)
    obtain ⟨b1, b2, b3, b4, b5, b6, b7, b8⟩ := hbg
    have hnfstart : nf.start_line = f.start_line := rfl
    have hnflevel : nf.level = f.level := rfl
    refine ih { g with children := g.children ++ [nf] } roots b1 b2 b3 b4 b5
      ?_ ?_ ?_ ?_
      (fun x hx => hbel x (List.mem_cons_of_mem g hx))
      ?_ hr hrs ?_
    · intro c hc
      rcases List.mem_append.mp hc with h | h
      · exact ⟨(b7 c h).1, (b7 c h).2.1⟩
      · have : c = nf := by simpa using h
        subst this
        exact ⟨hnflevel ▸ r1, hnfstart ▸ r2⟩
    · intro c hc
      rcases List.mem_append.mp hc with h | h
      · exact (b7 c h).2.2.toFinal
      · have : c = nf := by simpa using h
        subst this
        exact hnffin
    · rw [List.pairwise_append]
      refine ⟨b8, by simp, ?_⟩
      intro a ha b hb
      have : b = nf := by simpa using hb
      subst this
      rw [hnfstart]
      exact r4 a ha
    · show regionSucc
        (closeFrame { g with children := g.children ++ [nf] }) =
          (succLine dl g.start_line).getD L
      cases hgc : g.children with
      | nil =>
        simp only [hgc] at r3
        show nf.start_line = (succLine dl g.start_line).getD L
        rw [r3]
        rfl
      | cons c cs =>
        simp only [hgc] at r3
        show c.start_line = (succLine dl g.start_line).getD L
        rw [r3]
        rfl
    · have htail : List.Chain' (stackRel dl) (g :: gs) :=
        (List.chain'_cons.mp hch).2
      cases gs with
      | nil => simp
      | cons h hs =>
        rw [List.chain'_cons] at htail ⊢
        exact ⟨stackRel_congr_above rfl rfl htail.1, htail.2⟩
    · intro n hn
      have := hrb n hn
      cases gs with
      | nil => simpa using this
      | cons h hs => simpa using this

/-- At end of input the invariant yields the final facts for every root of
the forest. -/
theorem stInv_final (L : Nat) (dl : List Nat) (st : ParseState)
    (hinv : StInv L dl st) :
    (∀ n ∈ closeAll st.roots st.stack, NodeFinal L dl n) ∧
    List.Pairwise (fun a b => a.start_line < b.start_line)
      (closeAll st.roots st.stack) := by
  obtain ⟨hroots, hrsort, hrb, hfr, hch, htop⟩ := hinv
  cases hst : st.stack with
  | nil =>
    have hre : st.roots = [] := by
      have h := htop; rw [hst] at h; exact h
    rw [hre]
    simp [closeAll]
  | cons f rest =>
    have htf : f.children = [] ∧ f.end_line = L - 1 ∧
        succLine dl f.start_line = none := by
      have h := htop; rw [hst] at h; exact h
    have hbf : frameBase L dl f := hfr f (by rw [hst]; simp)
    obtain ⟨b1, b2, b3, b4, b5, b6, b7, b8⟩ := hbf
    show (∀ n ∈ closeAllAux st.roots f rest, _) ∧ _
    have hchf : List.Chain' (stackRel dl) (f :: rest) := by
      have h := hch; rw [hst] at h; exact h
    refine closeAllAux_spec L dl rest f st.roots b1 b2 b3 b4 b5
      (fun c hc => ⟨(b7 c hc).1, (b7 c hc).2.1⟩)
      (fun c hc => (b7 c hc).2.2.toFinal) b8 ?_
      (fun g hg => hfr g (by rw [hst]; exact List.mem_cons_of_mem f hg))
      hchf
      (fun n hn => (hroots n hn).toFinal) hrsort
      (fun n hn => ?_)
    · have ht1 := htf.1
      have ht2 := htf.2.1
      rw [htf.2.2]
      simp only [regionSucc, closeFrame, HeadingNode.children,
        HeadingNode.end_line, ht1, ht2, Option.getD_none]
      omega
    · exact hrb n hn _ (by rw [hst]; exact getLastD_mem_cons rest f)

/-- The lines of the document at which the parser fires a heading event. -/
def eventLines (content : List Char) : List Nat :=
  (headingEventsFrom 0 (splitLines content)).map (fun e => e.1)

/-- Every root of the parsed forest carries the full final invariant, and the
roots are sorted by start line. -/
theorem parse_nodes_final (content : List Char) :
    (∀ n ∈ parseHeadingHierarchy content,
      NodeFinal (splitLines content).length (eventLines content) n) ∧
    List.Pairwise (fun a b => a.start_line < b.start_line)
      (parseHeadingHierarchy content) := by
  have h0 : StInv (splitLines content).length [] ⟨[], []⟩ :=
    ⟨by simp, by simp, by simp, by simp, List.chain'_nil, rfl⟩
  have hin := stInv_fold (splitLines content).length
    (headingEventsFrom 0 (splitLines content)) [] ⟨[], []⟩ h0
    (fun e he => ⟨by
        simpa using (headingEventsFrom_bounds 0 (splitLines content) e he).2,
      (headingEventsFrom_levels 0 (splitLines content) e he).1,
      (headingEventsFrom_levels 0 (splitLines content) e he).2⟩)
    (by intro x hx; simp at hx)
    (headingEventsFrom_sorted 0 (splitLines content))
  rw [List.nil_append] at hin
  have hP : parseHeadingHierarchy content =
      closeAll
        (List.foldl (parseStep (splitLines content).length) ⟨[], []⟩
          (headingEventsFrom 0 (splitLines content))).roots
        (List.foldl (parseStep (splitLines content).length) ⟨[], []⟩
          (headingEventsFrom 0 (splitLines content))).stack := by
    simp only [parseHeadingHierarchy]
    rw [parseLinesAux_eq_foldl]
  rw [hP]
  exact stInv_final (splitLines content).length (eventLines content) _ hin

/-- The structural well-formedness facts of a parsed heading node, stated
without reference to the parse: levels in 1..6, a nonempty line region,
strictly deeper children listed in strictly increasing start order. -/
inductive NodeWF : HeadingNode → Prop where
  | mk {t : List Char} {lv s e : Nat} {ch : List HeadingNode}
      (hlv1 : 1 ≤ lv) (hlv6 : lv ≤ 6) (hse : s ≤ e)
      (hch : ∀ c ∈ ch, lv < c.level)
      (hsort : List.Pairwise (fun a b => a.start_line < b.start_line) ch)
      (hrec : ∀ c ∈ ch, NodeWF c) :
      NodeWF (.mk t lv s e ch)

theorem NodeFinal.toWF {L : Nat} {dl : List Nat} :
    ∀ {n : HeadingNode}, NodeFinal L dl n → NodeWF n := by
  intro n h
  induction h with
  | mk hlv1 hlv6 hsL hse heL hsucc hch hrec hsort ih =>
    exact NodeWF.mk hlv1 hlv6 hse (fun c hc => (hch c hc).1) hsort ih

/-!
## Membership of a lookup result in the forest
-/

/-- `InForest ns n`: `n` is a node of the forest `ns`, at any depth. -/
inductive InForest : List HeadingNode → HeadingNode → Prop where
  | root {ns : List HeadingNode} {n : HeadingNode} :
      n ∈ ns → InForest ns n
  | child {ns : List HeadingNode} {n m : HeadingNode} :
      m ∈ ns → InForest m.children n → InForest ns n

theorem InForest.widen {ns ns' : List HeadingNode} {n : HeadingNode}
    (hsub : ∀ x ∈ ns, x ∈ ns') (h : InForest ns n) : InForest ns' n := by
  cases h with
  | root hm => exact .root (hsub _ hm)
  | child hm hrec => exact .child (hsub _ hm) hrec

theorem NodeFinal.children_final {L : Nat} {dl : List Nat} {n : HeadingNode}
    (h : NodeFinal L dl n) : ∀ c ∈ n.children, NodeFinal L dl c := by
  cases h with
  | mk hlv1 hlv6 hsL hse heL hsucc hch hrec hsort => exact hrec

theorem InForest.final {L : Nat} {dl : List Nat} {ns : List HeadingNode}
    {n : HeadingNode} (h : InForest ns n)
    (hall : ∀ r ∈ ns, NodeFinal L dl r) : NodeFinal L dl n := by
  induction h with
  | root hm => exact hall _ hm
  | child hm _ ih => exact ih ((hall _ hm).children_final)

theorem findHeadingInTreeF_mem :
    ∀ (fuel : Nat) (nodes : List HeadingNode) (path : List (List Char))
      (index : Nat) (n : HeadingNode),
      findHeadingInTreeF fuel nodes path index = some n →
      InForest nodes n := by
  intro fuel
  induction fuel with
  | zero => intro nodes path index n h; simp [findHeadingInTreeF] at h
  | succ fuel ih =>
    intro nodes path index n h
    cases path with
    | nil => simp [findHeadingInTreeF] at h
    | cons t rp =>
      have hfb : ∀ (ns : List HeadingNode),
          findFallbackF (findHeadingInTreeF fuel) ns (t :: rp) index =
            some n →
          InForest ns n := by
        intro ns
        induction ns with
        | nil => intro hx; simp [findFallbackF] at hx
        | cons m rest ihn =>
          intro hx
          cases hr : findHeadingInTreeF fuel m.children (t :: rp) index with
          | some found =>
            simp only [findFallbackF, hr] at hx
            have heq : found = n := by simpa using hx
            exact .child (by simp)
              (ih m.children (t :: rp) index n (heq ▸ hr))
          | none =>
            simp only [findFallbackF, hr] at hx
            exact (ihn hx).widen (fun x hxm => List.mem_cons_of_mem m hxm)
      simp only [findHeadingInTreeF] at h
      cases hm : nodes.filter (fun x => x.text = t) with
      | nil =>
        rw [hm] at h
        cases rp with
        | nil => exact hfb nodes (by simpa using h)
        | cons a b => simp at h
      | cons m ms =>
        rw [hm] at h
        cases rp with
        | nil =>
          rw [if_pos rfl] at h
          have hmem : n ∈ m :: ms := by
            have := List.getElem?_mem h
            exact this
          have : n ∈ nodes.filter (fun x => x.text = t) := hm ▸ hmem
          exact .root (List.mem_of_mem_filter this)
        | cons a b =>
          rw [if_neg (by simp)] at h
          have hmm : m ∈ nodes :=
            List.mem_of_mem_filter (hm ▸ List.mem_cons_self m ms)
          exact .child hmm (ih m.children (a :: b) index n h)

theorem findHeadingInTree_mem {nodes : List HeadingNode}
    {path : List (List Char)} {index : Nat} {n : HeadingNode}
    (h : findHeadingInTree nodes path index = some n) : InForest nodes n := by
  refine findHeadingInTreeF_mem (sizeOf nodes) nodes path index n ?_
  rw [findHeadingInTreeF_spec (sizeOf nodes) nodes path index (le_refl _)]
  exact h

/-- A successfully resolved heading position comes from a node of the parsed
forest: it spans from the line after the node's start to the node's content
end, with `end_col = -1`. -/
theorem findHeadingTarget_node {content target : List Char}
    {p : BlockPosition}
    (h : findHeadingTarget content target = .ok (some p)) :
    ∃ n, InForest (parseHeadingHierarchy content) n ∧
      p.start_line = n.start_line + 1 ∧ p.end_line = contentEndOf n ∧
      p.start_col = 0 ∧ p.end_col = -1 := by
  unfold findHeadingTarget at h
  cases hp : parseTargetIndex target with
  | error e => rw [hp] at h; simp [Bind.bind, Except.bind] at h
  | ok pi =>
    rw [hp] at h
    simp only [Bind.bind, Except.bind] at h
    by_cases hparts : pi.1 = []
    · rw [if_pos hparts] at h
      simp [Pure.pure, Except.pure] at h
    · rw [if_neg hparts] at h
      cases hf : findHeadingInTree (parseHeadingHierarchy content) pi.1 pi.2
        with
      | none => rw [hf] at h; simp [Pure.pure, Except.pure] at h
      | some node =>
        rw [hf] at h
        refine ⟨node, findHeadingInTree_mem hf, ?_⟩
        simp only [Pure.pure, Except.pure, Except.ok.injEq,
          Option.some.injEq] at h
        rw [← h]
        exact ⟨rfl, rfl, rfl, rfl⟩

/-- Bounds of a resolved heading position inside the document's lines. -/
theorem findHeadingTarget_bounds {content target : List Char}
    {p : BlockPosition}
    (h : findHeadingTarget content target = .ok (some p)) :
    p.end_col = -1 ∧ p.start_line ≤ p.end_line + 1 ∧
      p.end_line + 1 ≤ (splitLines content).length := by
  obtain ⟨n, hin, hs, he, hsc, hec⟩ := findHeadingTarget_node h
  have hfin : NodeFinal (splitLines content).length (eventLines content) n :=
    hin.final (parse_nodes_final content).1
  refine ⟨hec, ?_⟩
  cases hfin with
  | mk hlv1 hlv6 hsL hse heL hsucc hch hrec hsort =>
    rename_i t lv s e ch
    cases hc : ch with
    | nil =>
      subst hc
      have he' : p.end_line = e := by
        rw [he]; rfl
      have hs' : p.start_line = s + 1 := by
        rw [hs]; rfl
      omega
    | cons c cs =>
      subst hc
      have he' : p.end_line = c.start_line - 1 := by
        rw [he]; rfl
      have hs' : p.start_line = s + 1 := by
        rw [hs]; rfl
      have hcf : NodeFinal (splitLines content).length (eventLines content)
          c := hrec c (by simp)
      have hcL : c.start_line < (splitLines content).length := by
        cases hcf with
        | mk h1 h2 h3 h4 h5 h6 h7 h8 h9 => exact h3
      have hcs : s < c.start_line := (hch c (by simp)).2
      omega

/-!
## Line-renumbering simulation

Replacing a heading's content region by heading-free text shifts the line
numbers of everything after the region while leaving the heading structure
intact.  `mapNode`/`mapFrame`/`mapState` rename the line fields of nodes,
frames and parser states; the parser and the lookup commute with the
renaming.
-/

mutual

def mapNode (sg tu : Nat → Nat) : HeadingNode → HeadingNode
  | .mk t lv s e ch => .mk t lv (sg s) (tu e) (mapForest sg tu ch)

def mapForest (sg tu : Nat → Nat) : List HeadingNode → List HeadingNode
  | [] => []
  | n :: ns => mapNode sg tu n :: mapForest sg tu ns

end

theorem mapForest_eq (sg tu : Nat → Nat) (ns : List HeadingNode) :
    mapForest sg tu ns = ns.map (mapNode sg tu) := by
  induction ns with
  | nil => rfl
  | cons n ns ih => simp only [mapForest, List.map_cons, ih]

def mapFrame (sg tu : Nat → Nat) (f : Frame) : Frame :=
  ⟨f.text, f.level, sg f.start_line, tu f.end_line,
    f.children.map (mapNode sg tu)⟩

def mapState (sg tu : Nat → Nat) (st : ParseState) : ParseState :=
  ⟨st.roots.map (mapNode sg tu), st.stack.map (mapFrame sg tu)⟩

theorem mapNode_text (sg tu : Nat → Nat) (n : HeadingNode) :
    (mapNode sg tu n).text = n.text := by
  cases n with
  | mk t lv s e ch => rfl

theorem mapNode_level (sg tu : Nat → Nat) (n : HeadingNode) :
    (mapNode sg tu n).level = n.level := by
  cases n with
  | mk t lv s e ch => rfl

theorem mapNode_start (sg tu : Nat → Nat) (n : HeadingNode) :
    (mapNode sg tu n).start_line = sg n.start_line := by
  cases n with
  | mk t lv s e ch => rfl

theorem mapNode_end (sg tu : Nat → Nat) (n : HeadingNode) :
    (mapNode sg tu n).end_line = tu n.end_line := by
  cases n with
  | mk t lv s e ch => rfl

theorem mapNode_children (sg tu : Nat → Nat) (n : HeadingNode) :
    (mapNode sg tu n).children = n.children.map (mapNode sg tu) := by
  cases n with
  | mk t lv s e ch =>
    show mapForest sg tu ch = _
    exact mapForest_eq sg tu ch

theorem closeFrame_map (sg tu : Nat → Nat) (f : Frame) :
    closeFrame (mapFrame sg tu f) = mapNode sg tu (closeFrame f) := by
  cases f with
  | mk t lv s e ch =>
    show HeadingNode.mk t lv (sg s) (tu e) (ch.map (mapNode sg tu)) =
      HeadingNode.mk t lv (sg s) (tu e) (mapForest sg tu ch)
    rw [mapForest_eq]

theorem mapFrame_update_end (sg tu : Nat → Nat) (i : Nat) (f : Frame)
    (h1 : tu (i - 1) = sg i - 1) :
    { mapFrame sg tu f with end_line := sg i - 1 } =
      mapFrame sg tu { f with end_line := i - 1 } := by
  cases f with
  | mk ft fl fs fe fc => simp [mapFrame, h1]

theorem popWhileAux_map (sg tu : Nat → Nat) (i lv : Nat)
    (h1 : tu (i - 1) = sg i - 1) :
    ∀ (stack : List Frame) (roots : List HeadingNode) (f : Frame),
      popWhileAux (sg i) lv (roots.map (mapNode sg tu)) (mapFrame sg tu f)
        (stack.map (mapFrame sg tu)) =
      ((popWhileAux i lv roots f stack).1.map (mapNode sg tu),
       (popWhileAux i lv roots f stack).2.map (mapFrame sg tu)) := by
  intro stack
  induction stack with
  | nil =>
    intro roots f
    simp only [List.map_nil, popWhileAux]
    by_cases hlev : lv ≤ f.level
    · rw [if_pos (show lv ≤ (mapFrame sg tu f).level from hlev),
        if_pos hlev]
      simp [closeFrame_map]
    · rw [if_neg (show ¬lv ≤ (mapFrame sg tu f).level from hlev),
        if_neg hlev]
      rfl
  | cons g gs ih =>
    intro roots f
    simp only [List.map_cons, popWhileAux]
    by_cases hlev : lv ≤ f.level
    · rw [if_pos (show lv ≤ (mapFrame sg tu f).level from hlev),
        if_pos hlev]
      have hg : { mapFrame sg tu g with children :=
          (mapFrame sg tu g).children ++
            [closeFrame { mapFrame sg tu f with end_line := sg i - 1 }] } =
          mapFrame sg tu { g with children :=
            g.children ++ [closeFrame { f with end_line := i - 1 }] } := by
        rw [mapFrame_update_end sg tu i f h1, closeFrame_map]
        cases g with
        | mk gt gl gs' ge gc => simp [mapFrame]
      rw [hg]
      exact ih roots _
    · rw [if_neg (show ¬lv ≤ (mapFrame sg tu f).level from hlev),
        if_neg hlev]
      rfl

theorem popWhile_map (sg tu : Nat → Nat) (i lv : Nat)
    (h1 : tu (i - 1) = sg i - 1) (roots : List HeadingNode)
    (stack : List Frame) :
    popWhile (sg i) lv (roots.map (mapNode sg tu))
        (stack.map (mapFrame sg tu)) =
      ((popWhile i lv roots stack).1.map (mapNode sg tu),
       (popWhile i lv roots stack).2.map (mapFrame sg tu)) := by
  cases stack with
  | nil => simp [popWhile]
  | cons f rest =>
    simp only [List.map_cons, popWhile]
    exact popWhileAux_map sg tu i lv h1 rest roots f

theorem parseStep_map (sg tu : Nat → Nat) (L L1 : Nat) (st : ParseState)
    (i lv : Nat) (t : List Char)
    (h1 : tu (i - 1) = sg i - 1) (h2 : tu (L - 1) = L1 - 1) :
    parseStep L1 (mapState sg tu st) (sg i, lv, t) =
      mapState sg tu (parseStep L st (i, lv, t)) := by
  cases st with
  | mk roots stack =>
    cases stack with
    | nil =>
      simp only [parseStep, mapState, List.map_nil]
      rw [show (popWhile (sg i) lv (roots.map (mapNode sg tu)) [] : _) =
          ((popWhile i lv roots []).1.map (mapNode sg tu),
            (popWhile i lv roots []).2.map (mapFrame sg tu)) from by
        simp [popWhile]]
      simp [mapFrame, h2]
    | cons f rest =>
      simp only [parseStep, mapState, List.map_cons]
      rw [mapFrame_update_end sg tu i f h1]
      rw [show ((mapFrame sg tu { f with end_line := i - 1 }) ::
            rest.map (mapFrame sg tu) : List Frame) =
          ({ f with end_line := i - 1 } :: rest).map (mapFrame sg tu) from
        rfl]
      rw [popWhile_map sg tu i lv h1 roots ({ f with end_line := i - 1 } ::
        rest)]
      simp [mapFrame, h2]

/-- `parseStep` on an empty stack never reads `i - 1`, so the renaming
condition on `tu (i - 1)` is not needed. -/
theorem parseStep_map_nil (sg tu : Nat → Nat) (L L1 : Nat) (st : ParseState)
    (i lv : Nat) (t : List Char)
    (hstack : st.stack = []) (h2 : tu (L - 1) = L1 - 1) :
    parseStep L1 (mapState sg tu st) (sg i, lv, t) =
      mapState sg tu (parseStep L st (i, lv, t)) := by
  cases st with
  | mk roots stack =>
    have : stack = [] := hstack
    subst this
    simp only [parseStep, mapState, List.map_nil]
    rw [show (popWhile (sg i) lv (roots.map (mapNode sg tu)) [] : _) =
        ((popWhile i lv roots []).1.map (mapNode sg tu),
          (popWhile i lv roots []).2.map (mapFrame sg tu)) from by
      simp [popWhile]]
    simp [mapFrame, h2]

theorem foldl_parseStep_map (sg tu : Nat → Nat) (L L1 : Nat)
    (h2 : tu (L - 1) = L1 - 1) :
    ∀ (evs : List (Nat × Nat × List Char)) (st : ParseState),
      (∀ e ∈ evs, tu (e.1 - 1) = sg e.1 - 1 ∨ e.1 = 0) →
      List.Pairwise (fun a b => a.1 < b.1) evs →
      (st.stack = [] ∨ ∀ e ∈ evs, 1 ≤ e.1) →
      List.foldl (parseStep L1) (mapState sg tu st)
        (evs.map (fun e => (sg e.1, e.2))) =
      mapState sg tu (List.foldl (parseStep L) st evs) := by
  intro evs
  induction evs with
  | nil => intro st _ _ _; rfl
  | cons e evs ih =>
    intro st h1 hsort h0
    obtain ⟨i, lv, t⟩ := e
    simp only [List.map_cons, List.foldl_cons]
    have hnext : ∀ e' ∈ evs, 1 ≤ e'.1 := by
      intro e' he'
      have := (List.pairwise_cons.mp hsort).1 e' he'
      omega
    have hstep : parseStep L1 (mapState sg tu st) (sg i, lv, t) =
        mapState sg tu (parseStep L st (i, lv, t)) := by
      rcases h1 (i, lv, t) (by simp) with hτ | hzero
      · exact parseStep_map sg tu L L1 st i lv t hτ h2
      · rcases h0 with hs | hpos
        · exact parseStep_map_nil sg tu L L1 st i lv t hs h2
        · have := hpos (i, lv, t) (by simp)
          omega
    rw [hstep]
    exact ih _ (fun x hx => h1 x (List.mem_cons_of_mem _ hx))
      (List.pairwise_cons.mp hsort).2 (Or.inr hnext)

theorem closeAllAux_map (sg tu : Nat → Nat) :
    ∀ (rest : List Frame) (roots : List HeadingNode) (f : Frame),
      closeAllAux (roots.map (mapNode sg tu)) (mapFrame sg tu f)
        (rest.map (mapFrame sg tu)) =
      (closeAllAux roots f rest).map (mapNode sg tu) := by
  intro rest
  induction rest with
  | nil =>
    intro roots f
    simp [closeAllAux, closeFrame_map]
  | cons g gs ih =>
    intro roots f
    simp only [List.map_cons, closeAllAux]
    have hg : { mapFrame sg tu g with children :=
        (mapFrame sg tu g).children ++ [closeFrame (mapFrame sg tu f)] } =
        mapFrame sg tu { g with children :=
          g.children ++ [closeFrame f] } := by
      rw [closeFrame_map]
      cases g with
      | mk gt gl gs' ge gc => simp [mapFrame]
    rw [hg]
    exact ih roots _

theorem closeAll_map (sg tu : Nat → Nat) (roots : List HeadingNode)
    (stack : List Frame) :
    closeAll (roots.map (mapNode sg tu)) (stack.map (mapFrame sg tu)) =
      (closeAll roots stack).map (mapNode sg tu) := by
  cases stack with
  | nil => simp [closeAll]
  | cons f rest =>
    simp only [List.map_cons, closeAll]
    exact closeAllAux_map sg tu rest roots f

theorem findHeadingInTreeF_map (sg tu : Nat → Nat) :
    ∀ (fuel : Nat) (nodes : List HeadingNode) (path : List (List Char))
      (index : Nat),
      findHeadingInTreeF fuel (nodes.map (mapNode sg tu)) path index =
        (findHeadingInTreeF fuel nodes path index).map (mapNode sg tu) := by
  intro fuel
  induction fuel with
  | zero => intro nodes path index; simp [findHeadingInTreeF]
  | succ fuel ih =>
    intro nodes path index
    cases path with
    | nil => simp [findHeadingInTreeF]
    | cons t rp =>
      have hfb : ∀ ns : List HeadingNode,
          findFallbackF (findHeadingInTreeF fuel)
              (ns.map (mapNode sg tu)) (t :: rp) index =
            (findFallbackF (findHeadingInTreeF fuel) ns (t :: rp)
              index).map (mapNode sg tu) := by
        intro ns
        induction ns with
        | nil => simp [findFallbackF]
        | cons m rest ihn =>
          simp only [List.map_cons, findFallbackF]
          rw [mapNode_children, ih m.children (t :: rp) index]
          cases hr : findHeadingInTreeF fuel m.children (t :: rp) index with
          | some found => simp [hr]
          | none => simp [hr, ihn]
      have hfilter : (nodes.map (mapNode sg tu)).filter
          (fun n => n.text = t) =
          (nodes.filter (fun n => n.text = t)).map (mapNode sg tu) := by
        rw [List.filter_map]
        congr 1
        exact List.filter_congr
          (fun x _ => by simp [Function.comp, mapNode_text])
      simp only [findHeadingInTreeF]
      rw [hfilter]
      cases hm : nodes.filter (fun n => n.text = t) with
      | nil =>
        simp only [List.map_nil]
        cases rp with
        | nil =>
          rw [if_pos rfl, if_pos rfl]
          exact hfb nodes
        | cons a b => simp
      | cons m ms =>
        simp only [List.map_cons]
        cases rp with
        | nil =>
          rw [if_pos rfl, if_pos rfl]
          rw [show (mapNode sg tu m :: ms.map (mapNode sg tu) :
              List HeadingNode) = (m :: ms).map (mapNode sg tu) from rfl]
          rw [List.getElem?_map]
        | cons a b =>
          rw [if_neg (by simp), if_neg (by simp)]
          rw [mapNode_children]
          exact ih m.children (a :: b) index

theorem findHeadingInTree_map (sg tu : Nat → Nat) (nodes : List HeadingNode)
    (path : List (List Char)) (index : Nat) :
    findHeadingInTree (nodes.map (mapNode sg tu)) path index =
      (findHeadingInTree nodes path index).map (mapNode sg tu) := by
  rw [← findHeadingInTreeF_spec
    (sizeOf nodes + sizeOf (nodes.map (mapNode sg tu))) nodes path index
    (Nat.le_add_right _ _)]
  rw [← findHeadingInTreeF_spec
    (sizeOf nodes + sizeOf (nodes.map (mapNode sg tu)))
    (nodes.map (mapNode sg tu)) path index (Nat.le_add_left _ _)]
  exact findHeadingInTreeF_map sg tu _ nodes path index

/-- Renumbering of start lines under a region replacement: lines up to the
heading line `s` keep their index, lines from `re + 1` on shift by the
length difference of the regions. -/
def sigmaMap (s re k i : Nat) : Nat :=
  if i ≤ s then i else i + s + 1 + k - (re + 1)

/-- Renumbering of end lines under a region replacement. -/
def tauMap (s re k e : Nat) : Nat :=
  if e < s then e else e + s + 1 + k - (re + 1)

/-- Replacing the content region `[s+1, re]` of a document by `k`
heading-free lines reparses to the renamed forest. -/
theorem parse_replace_map (content X : List Char) (s re k : Nat)
    (hk : k = (splitLines X).length)
    (hX : ∀ l ∈ splitLines X, headingMatch l = none)
    (hsL : s < (splitLines content).length)
    (hsre : s ≤ re) (hreL : re < (splitLines content).length)
    (hgap : ∀ x ∈ eventLines content, x ≤ s ∨ re + 1 ≤ x) :
    parseHeadingHierarchy
        (joinLines ((splitLines content).take (s + 1) ++ splitLines X ++
          (splitLines content).drop (re + 1))) =
      (parseHeadingHierarchy content).map
        (mapNode (sigmaMap s re k) (tauMap s re k)) := by
  have hAlen : ((splitLines content).take (s + 1)).length = s + 1 := by
    rw [List.length_take]; omega
  have hBlen : ((splitLines content).drop (re + 1)).length =
      (splitLines content).length - (re + 1) := List.length_drop _ _
  have hMidlen : (((splitLines content).drop (s + 1)).take
      (re + 1 - (s + 1))).length = re + 1 - (s + 1) := by
    rw [List.length_take, List.length_drop]; omega
  have hdd : ((splitLines content).drop (s + 1)).drop (re + 1 - (s + 1)) =
      (splitLines content).drop (re + 1) := by
    rw [List.drop_drop]; congr 1; omega
  have hmid : ((splitLines content).drop (s + 1)).take (re + 1 - (s + 1)) ++
      (splitLines content).drop (re + 1) =
      (splitLines content).drop (s + 1) := by
    rw [← hdd]; exact List.take_append_drop _ _
  have hsplit : splitLines content =
      (splitLines content).take (s + 1) ++
        (((splitLines content).drop (s + 1)).take (re + 1 - (s + 1)) ++
          (splitLines content).drop (re + 1)) := by
    rw [hmid]; exact (List.take_append_drop _ _).symm
  -- events of the original document, in three chunks
  have hEraw : headingEventsFrom 0 (splitLines content) =
      headingEventsFrom 0 ((splitLines content).take (s + 1)) ++
        (headingEventsFrom (s + 1)
            (((splitLines content).drop (s + 1)).take (re + 1 - (s + 1))) ++
          headingEventsFrom (re + 1)
            ((splitLines content).drop (re + 1))) := by
    conv_lhs => rw [hsplit]
    rw [headingEventsFrom_append, headingEventsFrom_append]
    rw [show (0 + ((splitLines content).take (s + 1)).length : Nat) =
      s + 1 from by rw [hAlen]; omega]
    rw [show (s + 1 + (((splitLines content).drop (s + 1)).take
        (re + 1 - (s + 1))).length : Nat) = re + 1 from by
      rw [hMidlen]; omega]
  -- no heading events inside the replaced region
  have hEM : headingEventsFrom (s + 1)
      (((splitLines content).drop (s + 1)).take (re + 1 - (s + 1))) = [] := by
    rw [List.eq_nil_iff_forall_not_mem]
    intro e he
    have hb := headingEventsFrom_bounds (s + 1) _ e he
    rw [hMidlen] at hb
    have hmem : e ∈ headingEventsFrom 0 (splitLines content) := by
      rw [hEraw, List.mem_append, List.mem_append]
      exact Or.inr (Or.inl he)
    have hdl : e.1 ∈ eventLines content := by
      exact List.mem_map.mpr ⟨e, hmem, rfl⟩
    have := hgap e.1 hdl
    omega
  -- events of the original document
  have hE : headingEventsFrom 0 (splitLines content) =
      headingEventsFrom 0 ((splitLines content).take (s + 1)) ++
        headingEventsFrom (re + 1) ((splitLines content).drop (re + 1)) := by
    rw [hEraw, hEM, List.nil_append]
  -- the replaced document's lines
  have hfree : ∀ l ∈ (splitLines content).take (s + 1) ++
      (splitLines X ++ (splitLines content).drop (re + 1)), '\n' ∉ l := by
    intro l hl
    rcases List.mem_append.mp hl with h | h
    · exact not_newline_mem_splitLines content l (List.take_subset _ _ h)
    · rcases List.mem_append.mp h with h' | h'
      · exact not_newline_mem_splitLines X l h'
      · exact not_newline_mem_splitLines content l (List.drop_subset _ _ h')
  have hlines1 : splitLines (joinLines ((splitLines content).take (s + 1) ++
      splitLines X ++ (splitLines content).drop (re + 1))) =
      (splitLines content).take (s + 1) ++ splitLines X ++
        (splitLines content).drop (re + 1) := by
    rw [List.append_assoc]
    refine splitLines_joinLines _ ?_ hfree
    intro hx
    have := (List.append_eq_nil.mp hx).1
    rw [← List.length_eq_zero] at this
    omega
  -- events of the replaced document
  have hE1 : headingEventsFrom 0 ((splitLines content).take (s + 1) ++
      (splitLines X ++ (splitLines content).drop (re + 1))) =
      headingEventsFrom 0 ((splitLines content).take (s + 1)) ++
        headingEventsFrom (s + 1 + k)
          ((splitLines content).drop (re + 1)) := by
    rw [headingEventsFrom_append, headingEventsFrom_append]
    rw [headingEventsFrom_none _ _ hX, List.nil_append]
    rw [show (0 + ((splitLines content).take (s + 1)).length : Nat) =
      s + 1 from by rw [hAlen]; omega]
    rw [hk]
  -- the original events, renamed, are the replaced document's events
  have hmapE : (headingEventsFrom 0 (splitLines content)).map
      (fun e => (sigmaMap s re k e.1, e.2)) =
      headingEventsFrom 0 ((splitLines content).take (s + 1)) ++
        headingEventsFrom (s + 1 + k)
          ((splitLines content).drop (re + 1)) := by
    rw [hE, List.map_append]
    congr 1
    · have : ∀ e ∈ headingEventsFrom 0 ((splitLines content).take (s + 1)),
          (fun e => (sigmaMap s re k e.1, e.2)) e = e := by
        intro e he
        have hb := headingEventsFrom_bounds 0 _ e he
        rw [hAlen] at hb
        show (sigmaMap s re k e.1, e.2) = e
        rw [show sigmaMap s re k e.1 = e.1 from by
          unfold sigmaMap; rw [if_pos (by omega)]]
      rw [List.map_congr_left this]
      simp
    · have h1 : headingEventsFrom (re + 1)
          ((splitLines content).drop (re + 1)) =
          (headingEventsFrom 0 ((splitLines content).drop (re + 1))).map
            (fun e => (e.1 + (re + 1), e.2)) := by
        have := headingEventsFrom_shift (re + 1) 0
          ((splitLines content).drop (re + 1))
        rw [Nat.zero_add] at this
        exact this
      have h2 : headingEventsFrom (s + 1 + k)
          ((splitLines content).drop (re + 1)) =
          (headingEventsFrom 0 ((splitLines content).drop (re + 1))).map
            (fun e => (e.1 + (s + 1 + k), e.2)) := by
        have := headingEventsFrom_shift (s + 1 + k) 0
          ((splitLines content).drop (re + 1))
        rw [Nat.zero_add] at this
        exact this
      rw [h1, h2, List.map_map]
      refine List.map_congr_left ?_
      intro e _
      show (sigmaMap s re k (e.1 + (re + 1)), e.2) = (e.1 + (s + 1 + k), e.2)
      rw [show sigmaMap s re k (e.1 + (re + 1)) = e.1 + (s + 1 + k) from by
        unfold sigmaMap; rw [if_neg (by omega)]; omega]
  -- the renaming conditions of the fold
  have hh2 : tauMap s re k ((splitLines content).length - 1) =
      ((splitLines content).take (s + 1) ++ (splitLines X ++
        (splitLines content).drop (re + 1))).length - 1 := by
    rw [List.length_append, List.length_append, hAlen, hBlen, ← hk]
    unfold tauMap
    rw [if_neg (by omega)]
    omega
  have hh1 : ∀ e ∈ headingEventsFrom 0 (splitLines content),
      tauMap s re k (e.1 - 1) = sigmaMap s re k e.1 - 1 ∨ e.1 = 0 := by
    intro e he
    rw [hE] at he
    rcases List.mem_append.mp he with h | h
    · have hb := headingEventsFrom_bounds 0 _ e h
      rw [hAlen] at hb
      by_cases hz : e.1 = 0
      · exact Or.inr hz
      · left
        unfold sigmaMap tauMap
        rw [if_pos (by omega), if_pos (by omega)]
    · have hb := headingEventsFrom_bounds (re + 1) _ e h
      left
      unfold sigmaMap tauMap
      rw [if_neg (by omega), if_neg (by omega)]
      omega
  -- assemble
  simp only [parseHeadingHierarchy]
  rw [hlines1, List.append_assoc]
  rw [parseLinesAux_eq_foldl, parseLinesAux_eq_foldl]
  rw [hE1, ← hmapE]
  have hfold := foldl_parseStep_map (sigmaMap s re k) (tauMap s re k)
    (splitLines content).length
    (((splitLines content).take (s + 1) ++ (splitLines X ++
      (splitLines content).drop (re + 1))).length) hh2
    (headingEventsFrom 0 (splitLines content)) ⟨[], []⟩ hh1
    (headingEventsFrom_sorted 0 (splitLines content)) (Or.inl rfl)
  rw [show (mapState (sigmaMap s re k) (tauMap s re k) ⟨[], []⟩ :
      ParseState) = ⟨[], []⟩ from rfl] at hfold
  rw [hfold]
  exact closeAll_map _ _ _ _

/-- After replacing a resolved heading's content region by heading-free
text, the same target resolves to the region now holding that text. -/
theorem replace_heading_resolve (content target X : List Char)
    (p : BlockPosition)
    (hX : ∀ l ∈ splitLines X, headingMatch l = none)
    (hfind : findHeadingTarget content target = .ok (some p)) :
    findHeadingTarget
        (joinLines ((splitLines content).take p.start_line ++
          splitLines X ++
          (splitLines content).drop (p.end_line + 1))) target =
      .ok (some ⟨p.start_line,
        p.start_line + (splitLines X).length - 1, 0, -1⟩) := by
  have hk1 : 1 ≤ (splitLines X).length :=
    List.length_pos.mpr (splitLines_ne_nil X)
  have hdlsort : List.Pairwise (· < ·) (eventLines content) := by
    unfold eventLines
    exact List.Pairwise.map (fun e : Nat × Nat × List Char => e.1)
      (fun a b h => h)
      (headingEventsFrom_sorted 0 (splitLines content))
  unfold findHeadingTarget at hfind ⊢
  cases hp : parseTargetIndex target with
  | error e => rw [hp] at hfind; simp [Bind.bind, Except.bind] at hfind
  | ok pi =>
    rw [hp] at hfind
    simp only [Bind.bind, Except.bind] at hfind ⊢
    by_cases hparts : pi.1 = []
    · rw [if_pos hparts] at hfind
      simp [Pure.pure, Except.pure] at hfind
    · rw [if_neg hparts] at hfind ⊢
      cases hf : findHeadingInTree (parseHeadingHierarchy content) pi.1 pi.2
        with
      | none => rw [hf] at hfind; simp [Pure.pure, Except.pure] at hfind
      | some n =>
        rw [hf] at hfind
        have hfin : NodeFinal (splitLines content).length
            (eventLines content) n :=
          (findHeadingInTree_mem hf).final (parse_nodes_final content).1
        cases hfin with
        | mk hlv1 hlv6 hsL hse heL hsucc hch hrec hsort =>
          rename_i t lv s e ch
          simp only [Pure.pure] at hfind
          have hpeq := Option.some.inj (Except.ok.inj hfind)
          cases hchc : ch with
          | nil =>
            subst hchc
            have hps : p.start_line = s + 1 := by rw [← hpeq]; rfl
            have hpe : p.end_line = e := by rw [← hpeq]; rfl
            have hre1 : regionSucc (HeadingNode.mk t lv s e []) =
                e + 1 := rfl
            rw [hre1] at hsucc
            have hgap : ∀ x ∈ eventLines content, x ≤ s ∨ e + 1 ≤ x := by
              intro x hx
              cases hsl : succLine (eventLines content) s with
              | some m =>
                rw [hsl] at hsucc
                by_cases hxs : x ≤ s
                · exact Or.inl hxs
                · right
                  have := succLine_min (eventLines content) hdlsort hsl x hx
                    (by omega)
                  simp only [Option.getD_some] at hsucc
                  omega
              | none =>
                rw [hsl] at hsucc
                exact Or.inl (by
                  have := succLine_none hsl x hx
                  omega)
            have hparse := parse_replace_map content X s e
              (splitLines X).length rfl hX hsL hse heL hgap
            rw [hps, hpe, hparse, findHeadingInTree_map, hf]
            rw [Option.map_some']
            rw [show (mapNode (sigmaMap s e (splitLines X).length)
                (tauMap s e (splitLines X).length)
                (HeadingNode.mk t lv s e []) : HeadingNode) =
              HeadingNode.mk t lv s (s + (splitLines X).length) [] from by
              show HeadingNode.mk t lv
                (sigmaMap s e (splitLines X).length s)
                (tauMap s e (splitLines X).length e)
                (mapForest _ _ []) = _
              unfold sigmaMap tauMap
              rw [if_pos (le_refl s), if_neg (by omega)]
              congr 1
              omega]
            show (Except.pure
                (some ⟨s + 1, s + (splitLines X).length, 0, -1⟩) :
                Except PatchError (Option BlockPosition)) =
              Except.ok (some ⟨s + 1,
                s + 1 + (splitLines X).length - 1, 0, -1⟩)
            rw [show (s + 1 + (splitLines X).length - 1 : Nat) =
              s + (splitLines X).length from by omega]
            rfl
          | cons c cs =>
            subst hchc
            have hcs : s < c.start_line := (hch c (by simp)).2
            have hcL : c.start_line < (splitLines content).length := by
              cases hrec c (by simp) with
              | mk h1 h2 h3 h4 h5 h6 h7 h8 h9 => exact h3
            have hps : p.start_line = s + 1 := by rw [← hpeq]; rfl
            have hpe : p.end_line = c.start_line - 1 := by
              rw [← hpeq]; rfl
            have hre1 : regionSucc (HeadingNode.mk t lv s e (c :: cs)) =
                c.start_line := rfl
            rw [hre1] at hsucc
            have hre2 : c.start_line - 1 + 1 = c.start_line := by omega
            have hgap : ∀ x ∈ eventLines content,
                x ≤ s ∨ (c.start_line - 1) + 1 ≤ x := by
              intro x hx
              rw [hre2]
              cases hsl : succLine (eventLines content) s with
              | some m =>
                rw [hsl] at hsucc
                by_cases hxs : x ≤ s
                · exact Or.inl hxs
                · right
                  have := succLine_min (eventLines content) hdlsort hsl x hx
                    (by omega)
                  simp only [Option.getD_some] at hsucc
                  omega
              | none =>
                rw [hsl] at hsucc
                exact Or.inl (by
                  have := succLine_none hsl x hx
                  omega)
            have hparse := parse_replace_map content X s (c.start_line - 1)
              (splitLines X).length rfl hX hsL (by omega)
              (by omega) hgap
            rw [hps, hpe, hparse, findHeadingInTree_map, hf]
            rw [Option.map_some']
            rw [show (mapNode (sigmaMap s (c.start_line - 1)
                  (splitLines X).length)
                (tauMap s (c.start_line - 1) (splitLines X).length)
                (HeadingNode.mk t lv s e (c :: cs)) : HeadingNode) =
              HeadingNode.mk t lv s
                (tauMap s (c.start_line - 1) (splitLines X).length e)
                (mapNode (sigmaMap s (c.start_line - 1)
                    (splitLines X).length)
                  (tauMap s (c.start_line - 1) (splitLines X).length) c ::
                  (mapForest (sigmaMap s (c.start_line - 1)
                      (splitLines X).length)
                    (tauMap s (c.start_line - 1)
                      (splitLines X).length) cs)) from by
              show HeadingNode.mk t lv
                (sigmaMap s (c.start_line - 1) (splitLines X).length s)
                _ (mapForest _ _ (c :: cs)) = _
              rw [show sigmaMap s (c.start_line - 1)
                  (splitLines X).length s = s from by
                unfold sigmaMap; rw [if_pos (le_refl s)]]
              rfl]
            show (Except.pure (some ⟨s + 1,
              (mapNode (sigmaMap s (c.start_line - 1)
                  (splitLines X).length)
                (tauMap s (c.start_line - 1) (splitLines X).length)
                c).start_line - 1, 0, -1⟩) :
                Except PatchError (Option BlockPosition)) =
              Except.ok (some ⟨s + 1,
                s + 1 + (splitLines X).length - 1, 0, -1⟩)
            rw [mapNode_start]
            rw [show sigmaMap s (c.start_line - 1) (splitLines X).length
                c.start_line = s + 1 + (splitLines X).length from by
              unfold sigmaMap
              rw [if_neg (by omega)]
              omega]
            rw [show (s + 1 + (splitLines X).length - 1 : Nat) =
              s + (splitLines X).length from by omega]
            rfl

/-!
## Dispatch lemmas for `apply_patch`
-/

theorem findHeadingTarget_of_parse_error {target : List Char} {e : PatchError}
    (content : List Char) (h : parseTargetIndex target = .error e) :
    findHeadingTarget content target = .error e := by
  unfold findHeadingTarget
  rw [h]
  rfl

theorem applyPatch_heading_error {content target : List Char} {e : PatchError}
    (op X : List Char) (b : Bool)
    (h : findHeadingTarget content target = .error e) :
    applyPatch content op ("heading").toList target X b = .error e := by
  unfold applyPatch
  rw [if_neg (by decide : ¬(("heading").toList = ("block").toList)),
    if_pos rfl, h]
  rfl

theorem applyPatch_heading_none_false {content target : List Char}
    (op X : List Char) (h : findHeadingTarget content target = .ok none) :
    applyPatch content op ("heading").toList target X false =
      .error (.targetNotFound (("Heading not found: ").toList ++ target)) := by
  unfold applyPatch
  rw [if_neg (by decide : ¬(("heading").toList = ("block").toList)),
    if_pos rfl, h]
  rfl

theorem applyPatch_heading_none_true {content target : List Char}
    (op X : List Char) (h : findHeadingTarget content target = .ok none) :
    applyPatch content op ("heading").toList target X true =
      .ok (createHeading content target X) := by
  unfold applyPatch
  rw [if_neg (by decide : ¬(("heading").toList = ("block").toList)),
    if_pos rfl, h]
  rfl

theorem applyPatch_heading_some {content target : List Char}
    {p : BlockPosition} (op X : List Char) (b : Bool)
    (h : findHeadingTarget content target = .ok (some p)) :
    applyPatch content op ("heading").toList target X b =
      applyAtPosition content p X op := by
  unfold applyPatch
  rw [if_neg (by decide : ¬(("heading").toList = ("block").toList)),
    if_pos rfl, h]
  rfl

theorem applyPatch_block {content target : List Char} {p : BlockPosition}
    (op X : List Char) (b : Bool)
    (h : findBlockTarget content target = .ok p) :
    applyPatch content op ("block").toList target X b =
      applyAtPosition content p X op := by
  unfold applyPatch
  rw [if_pos rfl, h]
  rfl

theorem applyPatch_block_error {content target : List Char} {e : PatchError}
    (op X : List Char) (b : Bool)
    (h : findBlockTarget content target = .error e) :
    applyPatch content op ("block").toList target X b = .error e := by
  unfold applyPatch
  rw [if_pos rfl, h]
  rfl

theorem applyAtPosition_invalid_op {op : List Char}
    (content : List Char) (p : BlockPosition) (X : List Char)
    (h1 : op ≠ ("append").toList) (h2 : op ≠ ("prepend").toList)
    (h3 : op ≠ ("replace").toList) :
    applyAtPosition content p X op =
      .error (.invalidTarget (("Invalid operation: ").toList ++ op ++
        (". Must be 'append', 'prepend', or 'replace'").toList)) := by
  unfold applyAtPosition
  rw [if_neg h3, if_neg h1, if_neg h2]

/-!
## Claims
-/

deriving instance DecidableEq for Except

/-- Claim C4: block resolution matches only the last `^identifier` token at
end of line and picks the first matching line in document order: on a line
`text ^first more ^second`, target `second` resolves to that line (with
`end_col` at the space before the marker), target `first` raises
`TargetNotFoundError`, and with two lines carrying `^dup` the first line
wins. -/
theorem claim4_theorem :
    findBlockTarget ("text ^first more ^second\nplain").toList
        ("second").toList = .ok ⟨0, 0, 0, 16⟩ ∧
    findBlockTarget ("text ^first more ^second\nplain").toList
        ("first").toList =
      .error (.targetNotFound ("Block reference not found: ^first").toList) ∧
    findBlockTarget ("a ^dup\nb ^dup").toList ("dup").toList =
      .ok ⟨0, 0, 0, 1⟩ := by
  refine ⟨by decide, by decide, by decide⟩

/-- Claim C3 (counterexample): for a block marker at column 0 the new content
is not spliced into the marker's line; it is appended as new lines after it,
so the document `^id` with appended `x` becomes `^id\n\nx`, not `x ^id`. -/
theorem claim3_counterexample :
    applyPatch ("^id").toList ("append").toList ("block").toList
        ("id").toList ("x").toList false = .ok ("^id\n\nx").toList ∧
    ("^id\n\nx").toList ≠ ("x ^id").toList := by
  refine ⟨by decide, by decide⟩

/-- Claim C3 (amended): for an append on a block target, the content is
spliced into the marker's line (before the marker and the space preceding
it, the marker staying the line's trailing text) only when the marker does
not start at column 0, i.e. when `end_col > 0`; when `end_col = 0` the new
content is appended as new lines after the marker's line. -/
theorem claim3_theorem :
    ∀ (content block_id X : List Char) (p : BlockPosition),
      findBlockTarget content block_id = .ok p →
      (0 < p.end_col →
        applyPatch content ("append").toList ("block").toList block_id X
            false =
          .ok (joinLines ((splitLines content).take p.start_line ++
            (trimRight ((((splitLines content).drop p.start_line).headD
                []).take p.end_col.toNat) ++
              ' ' :: (pyStrip X ++
                (((splitLines content).drop p.start_line).headD
                  []).drop p.end_col.toNat)) ::
            (splitLines content).drop (p.start_line + 1)))) ∧
      (p.end_col = 0 →
        applyPatch content ("append").toList ("block").toList block_id X
            false =
          .ok (joinLines ((splitLines content).take (p.start_line + 1) ++
            splitLines (if X.head? = some '\n' then X else '\n' :: X) ++
            (splitLines content).drop (p.start_line + 1)))) := by
  intro content block_id X p hfind
  have hp := findBlockTarget_ok hfind
  constructor
  · intro hcol
    simp only [applyPatch, if_neg (by decide : ¬(("block").toList = [])),
      if_pos rfl]
    rw [hfind]
    show applyAtPosition content p X ("append").toList = _
    unfold applyAtPosition
    rw [if_neg (by decide : ¬(("append").toList = ("replace").toList)),
      if_pos rfl, if_pos ⟨hp.1.symm, hcol⟩]
    rw [hp.1]
    simp
  · intro hcol
    simp only [applyPatch, if_neg (by decide : ¬(("block").toList = [])),
      if_pos rfl]
    rw [hfind]
    show applyAtPosition content p X ("append").toList = _
    unfold applyAtPosition
    rw [if_neg (by decide : ¬(("append").toList = ("replace").toList)),
      if_pos rfl, if_neg (by rw [hcol]; simp)]
    rw [hp.1]

/-- Claim C3 (witness for the amended theorem). -/
theorem claim3_witness :
    applyPatch ("a ^id").toList ("append").toList ("block").toList
        ("id").toList ("x").toList false = .ok ("a x ^id").toList ∧
    applyPatch ("^id").toList ("append").toList ("block").toList
        ("id").toList ("y").toList false = .ok ("^id\n\ny").toList := by
  constructor
  · have h := (claim3_theorem ("a ^id").toList ("id").toList ("x").toList
      ⟨0, 0, 0, 1⟩ (by decide)).1 (by decide)
    rw [h]; decide
  · have h := (claim3_theorem ("^id").toList ("id").toList ("y").toList
      ⟨0, 0, 0, 0⟩ (by decide)).2 (by decide)
    rw [h]; decide

/-- Claim C2 (counterexample): `replace` on a block target replaces the whole
marker line, removing the `^id` marker, so a second identical `replace`
raises `TargetNotFoundError` rather than returning a byte-identical
document. -/
theorem claim2_counterexample :
    applyPatch ("foo ^id").toList ("replace").toList ("block").toList
        ("id").toList ("bar").toList false = .ok ("bar").toList ∧
    applyPatch ("bar").toList ("replace").toList ("block").toList
        ("id").toList ("bar").toList false =
      .error (.targetNotFound ("Block reference not found: ^id").toList) := by
  refine ⟨by decide, by decide⟩

/-- Claim C1 (counterexample): the recursive depth-first fallback also runs
for the final segment of a multi-segment path: in
`# A / ## X / ### B / body`, the path `A::B` resolves to the grandchild `B`
(content region line 3) instead of reporting the target as not found. -/
theorem claim1_counterexample :
    findHeadingTarget ("# A\n## X\n### B\nbody").toList ("A::B").toList =
      .ok (some ⟨3, 3, 0, -1⟩) ∧
    applyPatch ("# A\n## X\n### B\nbody").toList ("append").toList
        ("heading").toList ("A::B").toList ("x").toList false =
      .ok ("# A\n## X\n### B\nbody\n\nx").toList := by
  have h : sizeOf (parseHeadingHierarchy ("# A\n## X\n### B\nbody").toList) ≤
      100000 := by decide
  constructor
  · rw [findHeadingTarget_eval 100000 h]; decide
  · rw [applyPatch_eval 100000 h]; decide

/-- Claim C1 (amended): during path resolution a segment with no exact-text
match among the current nodes aborts with no result when further segments
remain, but when the unmatched segment is the final remaining one — for a
path of any length, not only single-segment paths — the resolver falls back
to the recursive depth-first search through the children of the current
nodes. -/
theorem claim1_theorem :
    (∀ (nodes : List HeadingNode) (t : List Char) (rest : List (List Char))
        (idx : Nat),
      rest ≠ [] → (∀ n ∈ nodes, n.text ≠ t) →
      findHeadingInTree nodes (t :: rest) idx = none) ∧
    (∀ (nodes : List HeadingNode) (t : List Char) (idx : Nat),
      (∀ n ∈ nodes, n.text ≠ t) →
      findHeadingInTree nodes [t] idx = findFallback nodes [t] idx) := by
  have hfil : ∀ (nodes : List HeadingNode) (t : List Char),
      (∀ n ∈ nodes, n.text ≠ t) →
      nodes.filter (fun n => n.text = t) = [] := by
    intro nodes t h
    rw [List.filter_eq_nil_iff]
    intro n hn
    simpa using h n hn
  constructor
  · intro nodes t rest idx hrest h
    simp only [findHeadingInTree]
    rw [hfil nodes t h]
    simp [hrest]
  · intro nodes t idx h
    simp only [findHeadingInTree]
    rw [hfil nodes t h]
    simp

/-- Claim C1 (witness for the amended theorem). -/
theorem claim1_witness :
    findHeadingInTree [HeadingNode.mk ("A").toList 1 0 3
        [HeadingNode.mk ("X").toList 2 1 3
          [HeadingNode.mk ("B").toList 3 2 3 []]]]
      [("Q").toList, ("B").toList] 0 = none ∧
    findHeadingInTree [HeadingNode.mk ("X").toList 2 1 3
        [HeadingNode.mk ("B").toList 3 2 3 []]] [("B").toList] 0 =
      findFallback [HeadingNode.mk ("X").toList 2 1 3
        [HeadingNode.mk ("B").toList 3 2 3 []]] [("B").toList] 0 := by
  constructor
  · exact claim1_theorem.1 _ _ _ 0 (by simp) (by decide)
  · exact claim1_theorem.2 _ _ 0 (by decide)

/-- Claim C5: a final heading-path segment whose text after the last colon
parses as an integer below 1 makes `apply_patch` raise `InvalidTargetError`
(for any operation and any `create_if_missing`), while an unparsable suffix
raises nothing from the suffix handling and leaves the whole last segment —
colon included — as literal heading text with index 0. -/
theorem claim5_theorem :
    (∀ (content op X target : List Char) (b : Bool) (n : Int),
      ':' ∈ (splitOn2Colon target).getLastD [] →
      pyParseInt (rsplitColon ((splitOn2Colon target).getLastD [])).2 =
        some n →
      n < 1 →
      applyPatch content op ("heading").toList target X b =
        .error (.invalidTarget (("Index must be >= 1, got: ").toList ++
          (rsplitColon ((splitOn2Colon target).getLastD [])).2))) ∧
    (∀ (target : List Char),
      ':' ∈ (splitOn2Colon target).getLastD [] →
      pyParseInt (rsplitColon ((splitOn2Colon target).getLastD [])).2 =
        none →
      parseTargetIndex target = .ok (splitOn2Colon target, 0)) := by
  constructor
  · intro content op X target b n h1 h2 h3
    have hpt : parseTargetIndex target =
        .error (.invalidTarget (("Index must be >= 1, got: ").toList ++
          (rsplitColon ((splitOn2Colon target).getLastD [])).2)) := by
      simp only [parseTargetIndex]
      rw [if_pos h1, h2]
      simp only [if_pos (by omega : n - 1 < 0)]
    exact applyPatch_heading_error op X b
      (findHeadingTarget_of_parse_error content hpt)
  · intro target h1 h2
    simp only [parseTargetIndex]
    rw [if_pos h1, h2]

/-- Claim C5 (witness). -/
theorem claim5_witness :
    applyPatch ("doc").toList ("append").toList ("heading").toList
        ("Section:0").toList ("x").toList false =
      .error (.invalidTarget ("Index must be >= 1, got: 0").toList) ∧
    parseTargetIndex ("Section:two").toList =
      .ok ([("Section:two").toList], 0) := by
  constructor
  · have h := claim5_theorem.1 ("doc").toList ("append").toList ("x").toList
      ("Section:0").toList false 0 (by decide) (by decide) (by decide)
    rw [h]; decide
  · have h := claim5_theorem.2 ("Section:two").toList (by decide) (by decide)
    rw [h]; decide

/-- Claim C10: for heading and block targets, resolution precedes operation
validation: an unknown operation with a missing target reports
`TargetNotFoundError` (or performs creation when requested), never
`InvalidTargetError`; the invalid-operation error arises only once the
target resolves. -/
theorem claim10_theorem :
    (∀ (content op target X : List Char) (b : Bool) (e : PatchError),
      findBlockTarget content target = .error e →
      applyPatch content op ("block").toList target X b = .error e) ∧
    (∀ (content op target X : List Char),
      findHeadingTarget content target = .ok none →
      applyPatch content op ("heading").toList target X false =
        .error (.targetNotFound (("Heading not found: ").toList ++ target))) ∧
    (∀ (content op target X : List Char),
      findHeadingTarget content target = .ok none →
      applyPatch content op ("heading").toList target X true =
        .ok (createHeading content target X)) ∧
    (∀ (content op target X : List Char) (b : Bool) (p : BlockPosition),
      findHeadingTarget content target = .ok (some p) →
      op ≠ ("append").toList → op ≠ ("prepend").toList →
      op ≠ ("replace").toList →
      applyPatch content op ("heading").toList target X b =
        .error (.invalidTarget (("Invalid operation: ").toList ++ op ++
          (". Must be 'append', 'prepend', or 'replace'").toList))) := by
  refine ⟨?_, ?_, ?_, ?_⟩
  · intro content op target X b e h
    exact applyPatch_block_error op X b h
  · intro content op target X h
    exact applyPatch_heading_none_false op X h
  · intro content op target X h
    exact applyPatch_heading_none_true op X h
  · intro content op target X b p h h1 h2 h3
    rw [applyPatch_heading_some op X b h]
    exact applyAtPosition_invalid_op content p X h1 h2 h3

/-- Claim C10 (witness). -/
theorem claim10_witness :
    applyPatch ("doc").toList ("bogus").toList ("block").toList
        ("nope").toList ("x").toList false =
      .error (.targetNotFound ("Block reference not found: ^nope").toList) ∧
    applyPatch ("doc").toList ("bogus").toList ("heading").toList
        ("Missing").toList ("x").toList false =
      .error (.targetNotFound ("Heading not found: Missing").toList) ∧
    applyPatch ("doc").toList ("bogus").toList ("heading").toList
        ("Missing").toList ("x").toList true =
      .ok (createHeading ("doc").toList ("Missing").toList ("x").toList) ∧
    applyPatch ("# T\nbody").toList ("bogus").toList ("heading").toList
        ("T").toList ("x").toList false =
      .error (.invalidTarget
        ("Invalid operation: bogus. Must be 'append', 'prepend', or 'replace'").toList) := by
  have hd : sizeOf (parseHeadingHierarchy ("doc").toList) ≤ 100000 := by decide
  have ht : sizeOf (parseHeadingHierarchy ("# T\nbody").toList) ≤ 100000 := by
    decide
  have h1 : findHeadingTarget ("doc").toList ("Missing").toList = .ok none := by
    rw [findHeadingTarget_eval 100000 hd]; decide
  have h2 : findHeadingTarget ("# T\nbody").toList ("T").toList =
      .ok (some ⟨1, 1, 0, -1⟩) := by
    rw [findHeadingTarget_eval 100000 ht]; decide
  refine ⟨?_, ?_, ?_, ?_⟩
  · exact claim10_theorem.1 _ _ _ _ false _ (by decide)
  · exact claim10_theorem.2.1 _ _ _ _ h1
  · exact claim10_theorem.2.2.1 _ _ _ _ h1
  · have h := claim10_theorem.2.2.2 ("# T\nbody").toList ("bogus").toList
      ("T").toList ("x").toList false ⟨1, 1, 0, -1⟩ h2
      (by decide) (by decide) (by decide)
    rw [h]; decide

/-- Claim C6: frontmatter `append` errors with `InvalidTargetError` on an
existing non-list field (for any supplied value), initialises an absent field
as an empty list first, then extends element-wise for a (JSON-coerced) list
value and appends a single element otherwise; appending `"b"` to
`tags: [a]` yields a list holding `"a"` and `"b"`. -/
theorem claim6_theorem :
    (∀ (meta : Metadata) (field : List Char) (v val : PyValue),
      getMeta meta field = some v → (∀ l, v ≠ .list l) →
      updateFrontmatterMeta meta field val ("append").toList =
        .error (.invalidTarget
          (("Cannot append to non-list field: ").toList ++ field))) ∧
    (∀ (meta : Metadata) (field : List Char) (val : PyValue),
      getMeta meta field = none →
      updateFrontmatterMeta meta field val ("append").toList =
        .ok (setMeta meta field (.list
          (match coerceValue val with | .list xs => xs | w => [w])))) ∧
    (∀ (meta : Metadata) (field : List Char) (l : List PyValue)
        (val : PyValue),
      getMeta meta field = some (.list l) →
      updateFrontmatterMeta meta field val ("append").toList =
        .ok (setMeta meta field (.list (l ++
          (match coerceValue val with | .list xs => xs | w => [w]))))) ∧
    updateFrontmatterMeta [(("tags").toList, .list [.str ("a").toList])]
        ("tags").toList (.str ("b").toList) ("append").toList =
      .ok [(("tags").toList,
        .list [.str ("a").toList, .str ("b").toList])] := by
  refine ⟨?_, ?_, ?_, by rfl⟩
  · intro meta field v val hget hv
    simp only [updateFrontmatterMeta,
      if_neg (by decide : ¬(("append").toList = ("prepend").toList)),
      if_neg (by decide : ¬(("append").toList = ("replace").toList)),
      if_pos rfl]
    rw [hget]
    simp only [Option.isNone_some, Bool.false_eq_true, if_false, hget]
    cases v with
    | list l => exact absurd rfl (hv l)
    | str s => rfl
    | int n => rfl
    | bool b => rfl
    | null => rfl
  · intro meta field val hget
    have hne1 : ¬(("append").toList = ("prepend").toList) := by decide
    have hne2 : ¬(("append").toList = ("replace").toList) := by decide
    cases hc : coerceValue val with
    | list xs =>
      simp [updateFrontmatterMeta, hne1, hne2, hget, hc, getMeta_setMeta,
        setMeta_setMeta]
    | str s =>
      simp [updateFrontmatterMeta, hne1, hne2, hget, hc, getMeta_setMeta,
        setMeta_setMeta]
    | int n =>
      simp [updateFrontmatterMeta, hne1, hne2, hget, hc, getMeta_setMeta,
        setMeta_setMeta]
    | bool b =>
      simp [updateFrontmatterMeta, hne1, hne2, hget, hc, getMeta_setMeta,
        setMeta_setMeta]
    | null =>
      simp [updateFrontmatterMeta, hne1, hne2, hget, hc, getMeta_setMeta,
        setMeta_setMeta]
  · intro meta field l val hget
    have hne1 : ¬(("append").toList = ("prepend").toList) := by decide
    have hne2 : ¬(("append").toList = ("replace").toList) := by decide
    cases hc : coerceValue val with
    | list xs => simp [updateFrontmatterMeta, hne1, hne2, hget, hc]
    | str s => simp [updateFrontmatterMeta, hne1, hne2, hget, hc]
    | int n => simp [updateFrontmatterMeta, hne1, hne2, hget, hc]
    | bool b => simp [updateFrontmatterMeta, hne1, hne2, hget, hc]
    | null => simp [updateFrontmatterMeta, hne1, hne2, hget, hc]

/-- Claim C6 (witness). -/
theorem claim6_witness :
    updateFrontmatterMeta [(("k").toList, .str ("v").toList)] ("k").toList
        (.str ("w").toList) ("append").toList =
      .error (.invalidTarget
        ("Cannot append to non-list field: k").toList) ∧
    updateFrontmatterMeta [] ("k").toList (.int 7) ("append").toList =
      .ok (setMeta [] ("k").toList (.list
        (match coerceValue (.int 7) with | .list xs => xs | w => [w]))) ∧
    updateFrontmatterMeta [(("k").toList, .list [])] ("k").toList (.int 7)
        ("append").toList =
      .ok (setMeta [(("k").toList, .list [])] ("k").toList (.list ([] ++
        (match coerceValue (.int 7) with | .list xs => xs | w => [w])))) := by
  refine ⟨?_, ?_, ?_⟩
  · exact claim6_theorem.1 _ _ (.str ("v").toList) _ (by rfl)
      (fun l h => by cases h)
  · exact claim6_theorem.2.1 _ _ _ (by rfl)
  · exact claim6_theorem.2.2.1 _ _ [] _ (by rfl)

/-- Joining the alternating heading/blank line list built by
`_create_heading`, in closed string form. -/
theorem joinLines_chain (parts : List (List Char)) (X : List Char) :
    ∀ k : Nat,
      joinLines ((List.enumFrom k parts).flatMap
          (fun ih => [List.replicate (ih.1 + 1) '#' ++ ' ' :: ih.2, []]) ++
        [X]) =
      ((List.enumFrom k parts).flatMap
        (fun ih => List.replicate (ih.1 + 1) '#' ++ ' ' :: ih.2 ++
          ['\n', '\n'])) ++ X := by
  induction parts with
  | nil => intro k; simp [joinLines]
  | cons p ps ih =>
    intro k
    simp only [List.enumFrom, List.flatMap_cons, List.cons_append,
      List.nil_append]
    rw [joinLines_cons_of_ne _ _ (by simp),
      joinLines_cons_of_ne _ _ (by simp)]
    rw [List.nil_append, ih (k + 1)]
    simp

/-- Claim C7 (counterexample): creating a missing heading always joins the
chain to a non-empty document with a newline, so a document that already
ends in a line break still receives a blank separator line before the new
heading: the result is `abc\n\n# H\n\nx`, not `abc\n# H\n\nx`. -/
theorem claim7_counterexample :
    applyPatch ("abc\n").toList ("append").toList ("heading").toList
        ("H").toList ("x").toList true = .ok ("abc\n\n# H\n\nx").toList ∧
    ("abc\n\n# H\n\nx").toList ≠ ("abc\n# H\n\nx").toList := by
  constructor
  · have h : sizeOf (parseHeadingHierarchy ("abc\n").toList) ≤ 100000 := by
      decide
    rw [applyPatch_eval 100000 h]; decide
  · decide

/-- Closed string form of `_create_heading`. -/
theorem createHeading_closed (content target X : List Char) :
    createHeading content target X =
      (if content = [] then [] else
        content ++ '\n' ::
          (if content.getLast? = some '\n' then [] else ['\n'])) ++
      ((createParts target).enum.flatMap
        (fun ih => List.replicate (ih.1 + 1) '#' ++ ' ' :: ih.2 ++
          ['\n', '\n'])) ++ X := by
  unfold createHeading
  generalize createParts target = P
  have hchain := joinLines_chain P X 0
  have henum : P.enum = List.enumFrom 0 P := rfl
  by_cases hc : content = []
  · subst hc
    simp only [ne_eq, eq_self_iff_true, not_true_eq_false, false_and,
      if_false, if_true, List.nil_append]
    rw [henum, hchain]
  · by_cases hl : content.getLast? = some '\n'
    · simp only [ne_eq, hl, eq_self_iff_true, not_true_eq_false, and_false,
        if_false, if_neg hc, if_pos hc, List.nil_append]
      rw [henum, hchain]
      simp
    · simp only [ne_eq, if_pos (And.intro hc hl), if_neg hc, if_pos hc,
        if_neg hl]
      rw [List.append_assoc, List.singleton_append,
        joinLines_cons_of_ne _ _ (by simp), List.nil_append]
      rw [henum, hchain]
      simp

/-- Claim C7 (amended): when a heading target is missing and
`create_if_missing` holds, the result is the original document, a newline
(for non-empty documents), an extra blank line exactly when the document did
not already end with a line break, then for the i-th `::`-segment (the
trailing `:`-suffix stripped from the last segment) a heading line with i
`#` markers followed by a blank line, and finally the new content as the
innermost heading's body. -/
theorem claim7_theorem :
    ∀ (content op target X : List Char),
      findHeadingTarget content target = .ok none →
      applyPatch content op ("heading").toList target X true =
        .ok ((if content = [] then [] else
            content ++ '\n' ::
              (if content.getLast? = some '\n' then [] else ['\n'])) ++
          ((createParts target).enum.flatMap
            (fun ih => List.replicate (ih.1 + 1) '#' ++ ' ' :: ih.2 ++
              ['\n', '\n'])) ++ X) := by
  intro content op target X h
  rw [applyPatch_heading_none_true op X h, createHeading_closed]

/-- Claim C7 (witness). -/
theorem claim7_witness :
    applyPatch ("# Other\ntext").toList ("append").toList ("heading").toList
        ("New::Sub:3").toList ("body").toList true =
      .ok ("# Other\ntext\n\n# New\n\n## Sub\n\nbody").toList := by
  have hf : sizeOf (parseHeadingHierarchy ("# Other\ntext").toList) ≤
      100000 := by decide
  have h : findHeadingTarget ("# Other\ntext").toList
      ("New::Sub:3").toList = .ok none := by
    rw [findHeadingTarget_eval 100000 hf]; decide
  have := claim7_theorem ("# Other\ntext").toList ("append").toList
    ("New::Sub:3").toList ("body").toList h
  rw [this]; decide

/-- Claim C2 (amended): `replace` is idempotent for resolvable heading
targets whose replacement text contains no heading lines: replacing the
target of the replaced document with the same text returns that document
unchanged.  (For block targets the first replace removes the marker line,
so the second application fails; see the counterexample.) -/
theorem claim2_theorem (content target X d : List Char) (c : Bool)
    (p : BlockPosition)
    (hX : ∀ l ∈ splitLines X, headingMatch l = none)
    (hfind : findHeadingTarget content target = .ok (some p))
    (h1 : applyPatch content ("replace").toList ("heading").toList target X
        c = .ok d) :
    applyPatch d ("replace").toList ("heading").toList target X c =
      .ok d := by
  obtain ⟨hec, hsle, hel⟩ := findHeadingTarget_bounds hfind
  have hk1 : 1 ≤ (splitLines X).length :=
    List.length_pos.mpr (splitLines_ne_nil X)
  have hA : ((splitLines content).take p.start_line).length =
      p.start_line := by
    rw [List.length_take]; omega
  have happ : applyPatch content ("replace").toList ("heading").toList
      target X c =
      .ok (joinLines ((splitLines content).take p.start_line ++
        splitLines X ++ (splitLines content).drop (p.end_line + 1))) := by
    rw [applyPatch_heading_some ("replace").toList X c hfind]
    unfold applyAtPosition
    rw [if_pos rfl]
  rw [happ] at h1
  have hd := Except.ok.inj h1
  subst hd
  have hfree : ∀ l ∈ (splitLines content).take p.start_line ++
      splitLines X ++ (splitLines content).drop (p.end_line + 1),
      '\n' ∉ l := by
    intro l hl
    rcases List.mem_append.mp hl with h | h
    · rcases List.mem_append.mp h with h' | h'
      · exact not_newline_mem_splitLines content l
          (List.take_subset _ _ h')
      · exact not_newline_mem_splitLines X l h'
    · exact not_newline_mem_splitLines content l (List.drop_subset _ _ h)
  have hJ : splitLines (joinLines ((splitLines content).take p.start_line ++
      splitLines X ++ (splitLines content).drop (p.end_line + 1))) =
      (splitLines content).take p.start_line ++ splitLines X ++
        (splitLines content).drop (p.end_line + 1) := by
    refine splitLines_joinLines _ ?_ hfree
    intro hx
    have h1' := (List.append_eq_nil.mp (List.append_eq_nil.mp hx).1).2
    exact splitLines_ne_nil X h1'
  have hfind1 := replace_heading_resolve content target X p hX hfind
  rw [applyPatch_heading_some ("replace").toList X c hfind1]
  unfold applyAtPosition
  rw [if_pos rfl]
  show Except.ok (joinLines
      ((splitLines (joinLines ((splitLines content).take p.start_line ++
          splitLines X ++
          (splitLines content).drop (p.end_line + 1)))).take p.start_line ++
        splitLines X ++
        (splitLines (joinLines ((splitLines content).take p.start_line ++
          splitLines X ++
          (splitLines content).drop (p.end_line + 1)))).drop
            (p.start_line + (splitLines X).length - 1 + 1))) = _
  rw [hJ]
  rw [show (p.start_line + (splitLines X).length - 1 + 1 : Nat) =
    p.start_line + (splitLines X).length from by omega]
  have htake : (((splitLines content).take p.start_line ++ splitLines X ++
      (splitLines content).drop (p.end_line + 1))).take p.start_line =
      (splitLines content).take p.start_line := by
    rw [List.append_assoc,
      List.take_append_of_le_length (le_of_eq hA.symm),
      List.take_take, Nat.min_self]
  have hdrop : (((splitLines content).take p.start_line ++ splitLines X ++
      (splitLines content).drop (p.end_line + 1))).drop
        (p.start_line + (splitLines X).length) =
      (splitLines content).drop (p.end_line + 1) := by
    rw [show (p.start_line + (splitLines X).length : Nat) =
      ((splitLines content).take p.start_line ++ splitLines X).length
      from by rw [List.length_append, hA]]
    rw [List.drop_left]
  rw [htake, hdrop]

/-- Claim C2 (witness for the amended theorem): replacing the body of
`# T` by heading-free text a second time returns the same document. -/
theorem claim2_witness :
    applyPatch ("# T\nnew").toList ("replace").toList ("heading").toList
        ("T").toList ("new").toList false = .ok ("# T\nnew").toList := by
  have hX : ∀ l ∈ splitLines ("new").toList, headingMatch l = none := by
    decide
  have hf : sizeOf (parseHeadingHierarchy ("# T\nold").toList) ≤
      100000 := by decide
  have hfind : findHeadingTarget ("# T\nold").toList ("T").toList =
      .ok (some ⟨1, 1, 0, -1⟩) := by
    rw [findHeadingTarget_eval 100000 hf]; decide
  have h1 : applyPatch ("# T\nold").toList ("replace").toList
      ("heading").toList ("T").toList ("new").toList false =
      .ok ("# T\nnew").toList := by
    rw [applyPatch_eval 100000 hf]; decide
  exact claim2_theorem ("# T\nold").toList ("T").toList ("new").toList
    ("# T\nnew").toList false ⟨1, 1, 0, -1⟩ hX hfind h1

/-- **C8.** An `append` on a resolvable heading or block target leaves the
document text strictly before the target's resolved region byte-identical:
for a heading target the lines up to and including the region's last line
(`end_line`) survive unchanged, for a block target all lines before the
marker's line (`start_line`) do. -/
theorem claim8_theorem (content target X d : List Char) (c : Bool)
    (p : BlockPosition) :
    (findHeadingTarget content target = .ok (some p) →
      applyPatch content ("append").toList ("heading").toList target X c =
        .ok d →
      (splitLines d).take (p.end_line + 1) =
        (splitLines content).take (p.end_line + 1)) ∧
    (findBlockTarget content target = .ok p →
      applyPatch content ("append").toList ("block").toList target X c =
        .ok d →
      (splitLines d).take p.start_line =
        (splitLines content).take p.start_line) := by
  constructor
  · intro h1 h2
    obtain ⟨hec, hsle, hel⟩ := findHeadingTarget_bounds h1
    have happ : applyPatch content ("append").toList ("heading").toList
        target X c =
        .ok (joinLines ((splitLines content).take (p.end_line + 1) ++
          splitLines (if X.head? = some '\n' then X else '\n' :: X) ++
          (splitLines content).drop (p.end_line + 1))) := by
      rw [applyPatch_heading_some ("append").toList X c h1]
      unfold applyAtPosition
      rw [if_neg (by decide : ¬(("append").toList = ("replace").toList)),
        if_pos rfl,
        if_neg (fun hx => by rw [hec] at hx; exact absurd hx.2 (by decide))]
    rw [happ] at h2
    rw [← Except.ok.inj h2, List.append_assoc]
    rw [splitLines_joinLines_append _ _
      (fun l hl => not_newline_mem_splitLines content l
        (List.take_subset _ _ hl))
      (fun hx => splitLines_ne_nil _ ((List.append_eq_nil.mp hx).1))]
    rw [List.take_append_of_le_length (by rw [List.length_take]; omega)]
    rw [List.take_take]
    simp
  · intro h1 h2
    have hp := findBlockTarget_ok h1
    obtain ⟨hpe, hpsc, hpec, hpL⟩ := hp
    have hcases : 0 < p.end_col ∨ p.end_col = 0 := by omega
    rcases hcases with hcol | hcol
    · have happ : applyPatch content ("append").toList ("block").toList
          target X c =
          .ok (joinLines (((splitLines content).take p.start_line ++
            [trimRight ((((splitLines content).drop p.start_line).headD
                []).take p.end_col.toNat) ++
              ' ' :: (pyStrip X ++
                (((splitLines content).drop p.start_line).headD
                  []).drop p.end_col.toNat)]) ++
            (splitLines content).drop (p.end_line + 1))) := by
        rw [applyPatch_block ("append").toList X c h1]
        unfold applyAtPosition
        rw [if_neg (by decide : ¬(("append").toList = ("replace").toList)),
          if_pos rfl, if_pos ⟨hpe.symm, hcol⟩]
      rw [happ] at h2
      rw [← Except.ok.inj h2, List.append_assoc]
      rw [splitLines_joinLines_append _ _
        (fun l hl => not_newline_mem_splitLines content l
          (List.take_subset _ _ hl))
        (by simp)]
      rw [List.take_append_of_le_length (by rw [List.length_take]; omega)]
      rw [List.take_take]
      simp
    · have happ : applyPatch content ("append").toList ("block").toList
          target X c =
          .ok (joinLines ((splitLines content).take (p.end_line + 1) ++
            splitLines (if X.head? = some '\n' then X else '\n' :: X) ++
            (splitLines content).drop (p.end_line + 1))) := by
        rw [applyPatch_block ("append").toList X c h1]
        unfold applyAtPosition
        rw [if_neg (by decide : ¬(("append").toList = ("replace").toList)),
          if_pos rfl,
          if_neg (fun hx => by rw [hcol] at hx; exact absurd hx.2 (by decide))]
      rw [happ] at h2
      rw [← Except.ok.inj h2, List.append_assoc]
      rw [splitLines_joinLines_append _ _
        (fun l hl => not_newline_mem_splitLines content l
          (List.take_subset _ _ hl))
        (fun hx => splitLines_ne_nil _ ((List.append_eq_nil.mp hx).1))]
      rw [List.take_append_of_le_length (by rw [List.length_take]; omega)]
      rw [List.take_take]
      rw [Nat.min_eq_left (by omega)]

/-- Claim C8 (witness): concrete heading and block appends preserving the
prefix lines. -/
theorem claim8_witness :
    (splitLines ("# T\nbody\n\nx").toList).take 2 =
        (splitLines ("# T\nbody").toList).take 2 ∧
    (splitLines ("a\nfoo x ^id").toList).take 1 =
        (splitLines ("a\nfoo ^id").toList).take 1 := by
  constructor
  · have hf : sizeOf (parseHeadingHierarchy ("# T\nbody").toList) ≤
        100000 := by decide
    have h1 : findHeadingTarget ("# T\nbody").toList ("T").toList =
        .ok (some ⟨1, 1, 0, -1⟩) := by
      rw [findHeadingTarget_eval 100000 hf]; decide
    have h2 : applyPatch ("# T\nbody").toList ("append").toList
        ("heading").toList ("T").toList ("x").toList false =
        .ok ("# T\nbody\n\nx").toList := by
      rw [applyPatch_eval 100000 hf]; decide
    have h := (claim8_theorem ("# T\nbody").toList ("T").toList
      ("x").toList ("# T\nbody\n\nx").toList false ⟨1, 1, 0, -1⟩).1 h1 h2
    simpa using h
  · have h1 : findBlockTarget ("a\nfoo ^id").toList ("id").toList =
        .ok ⟨1, 1, 0, 3⟩ := by decide
    have h2 : applyPatch ("a\nfoo ^id").toList ("append").toList
        ("block").toList ("id").toList ("x").toList false =
        .ok ("a\nfoo x ^id").toList := by decide
    have h := (claim8_theorem ("a\nfoo ^id").toList ("id").toList
      ("x").toList ("a\nfoo x ^id").toList false ⟨1, 1, 0, 3⟩).2 h1 h2
    simpa using h

/-- **C9.** Every node of the forest returned by `_parse_heading_hierarchy`
satisfies: 1 ≤ level ≤ 6, start_line ≤ end_line, every child's level is
strictly greater than its parent's, and siblings — the roots as well as
every node's children list — appear in strictly increasing start_line
order (`NodeWF` states all the per-node facts recursively). -/
theorem claim9_theorem (content : List Char) :
    (∀ n ∈ parseHeadingHierarchy content, NodeWF n) ∧
    List.Pairwise (fun a b => a.start_line < b.start_line)
      (parseHeadingHierarchy content) :=
  ⟨fun n hn => ((parse_nodes_final content).1 n hn).toWF,
   (parse_nodes_final content).2⟩

end MarkdownVault
